import Mathlib

/-!
# Page-Replacement Visualizer: verification of the simulation engine

A shallow embedding of `src/utils/algorithms.ts` (the simulation engine of the
page-replacement visualizer) together with proofs about it.

Pages are JavaScript numbers; the fragment of numbers that the engine can
actually produce from its comma-separated input is modelled by `ℚ`.
`null` slots of the frame table become `Option.none`, the JS `Map` used for
LRU recency becomes an insertion-ordered association list, and the
`forEach` loop over the reference string becomes a left fold of `stepFn`.
-/

namespace Paging

/-- Page identifiers as produced by the engine's parser: JavaScript numbers,
modelled by `ℚ` (the parser only produces finite decimal values). -/
abbrev Page := ℚ

/-- The four policy selectors, from `src/types.ts` (`enum AlgorithmType`). -/
inductive AlgorithmType
  | FIFO
  | LRU
  | OPTIMAL
  | CLOCK
deriving DecidableEq, Repr

/-- Per-step hit/fault status (`'HIT' | 'FAULT'` in `src/types.ts`). -/
inductive StepStatus
  | HIT
  | FAULT
deriving DecidableEq, Repr, Inhabited

/-- One recorded simulation step, from `interface SimulationStep` in
`src/types.ts`.  The human-readable `explanation` string is presentation-only
and not modelled; the CLOCK metadata object becomes an optional pair
(pointer, reference bits), `none` for the other policies' empty metadata. -/
structure SimulationStep where
  stepIndex : ℕ
  requestedPage : Page
  frames : List (Option Page)
  status : StepStatus
  replacedPage : Option Page
  metadata : Option (ℕ × List ℕ)
deriving DecidableEq, Repr, Inhabited

/-- The aggregate result, from `interface SimulationResult` in `src/types.ts`.
The JS floating-point ratios are modelled as exact rationals. -/
structure SimulationResult where
  algorithm : AlgorithmType
  steps : List SimulationStep
  totalHits : ℕ
  totalFaults : ℕ
  hitRatio : ℚ
  faultRatio : ℚ
deriving Repr

/-! ## The lenient input parser (`parseReferenceString`) -/

/-- Value of a digit string read in base 10 (`digitsVal [] = 0`). -/
def digitsVal (cs : List Char) : ℕ :=
  cs.foldl (fun a c => a * 10 + (c.toNat - 48)) 0

/-- Split a character list at the first occurrence of `'.'`: the part before
it, and (if a dot occurs) the part after it. -/
def splitDot : List Char → List Char × Option (List Char)
  | [] => ([], none)
  | c :: cs =>
    if c = '.' then ([], some cs)
    else
      let r := splitDot cs
      (c :: r.1, r.2)

/-- Unsigned part of the modelled `Number()` conversion: a decimal literal,
optionally with a fractional part (`"12"`, `"12."`, `".5"`, `"1.5"`).  The
value of the literal `ip.fp` with `k` fraction digits is
`(ip·10^k + fp) / 10^k`, built with `mkRat`. -/
def jsNumberCore (cs : List Char) : Option ℚ :=
  match splitDot cs with
  | (ip, none) =>
    if ip ≠ [] ∧ ip.all Char.isDigit then some ((digitsVal ip : ℚ)) else none
  | (ip, some fp) =>
    if '.' ∈ fp then none
    else if (ip ≠ [] ∨ fp ≠ []) ∧ ip.all Char.isDigit ∧ fp.all Char.isDigit then
      some (mkRat (digitsVal ip * 10 ^ fp.length + digitsVal fp) (10 ^ fp.length))
    else none

/-- Model of the ECMAScript `Number()` string conversion, on the fragment the
engine's comma-separated input uses: an optional sign followed by a decimal
literal with optional fractional part.  `none` models `NaN`.  Exotic numeric
syntax (exponents, hex/octal/binary literals, `"Infinity"`) is outside the
modelled fragment. -/
def jsNumber : List Char → Option ℚ
  | '-' :: rest => (jsNumberCore rest).map (fun q => -q)
  | '+' :: rest => jsNumberCore rest
  | cs => jsNumberCore cs

/-- JS `String.prototype.split(',')`: cut the character list at every comma,
keeping empty pieces (`"".split(',')` is `[""]`). -/
def splitComma : List Char → List (List Char)
  | [] => [[]]
  | c :: cs =>
    if c = ',' then [] :: splitComma cs
    else
      match splitComma cs with
      | [] => [[c]]
      | t :: ts => (c :: t) :: ts

/-- JS `String.prototype.trim()`: strip leading and trailing whitespace. -/
def jsTrim (cs : List Char) : List Char :=
  ((cs.dropWhile Char.isWhitespace).reverse.dropWhile Char.isWhitespace).reverse

/-- `parseReferenceString` from `src/utils/algorithms.ts`: split on commas,
trim each token, keep tokens that are nonempty and numeric
(`!isNaN(Number(s))`), convert them, and keep only nonnegative values. -/
def parseReferenceString (input : String) : List Page :=
  ((((splitComma input.data).map jsTrim).filter
      (fun t => !t.isEmpty && (jsNumber t).isSome)).map
      (fun t => (jsNumber t).getD 0)).filter
      (fun n => decide (0 ≤ n))

/-! ## Auxiliary JS-faithful list operations -/

/-- The filter/map/filter pipeline of `parseReferenceString` fused into one
`filterMap`: a token survives exactly when it is nonempty, numeric, and
nonnegative, and the surviving values appear in token order with duplicates
kept. -/
theorem parse_pipeline_eq (l : List (List Char)) :
    ((l.filter (fun t => !t.isEmpty && (jsNumber t).isSome)).map
      (fun t => (jsNumber t).getD 0)).filter (fun n => decide (0 ≤ n)) =
    l.filterMap (fun t => (jsNumber t).bind
      (fun q => if t ≠ [] ∧ 0 ≤ q then some q else none)) := by
  induction l with
  | nil => rfl
  | cons t l ih =>
    rcases hjq : jsNumber t with _ | q
    · simp [List.filter_cons, List.filterMap_cons, hjq, ih]
    · by_cases ht : t.isEmpty
      · have ht' : t = [] := by simpa using ht
        simp [List.filter_cons, List.filterMap_cons, hjq, ht', ih]
      · have hte : t.isEmpty = false := by simpa using ht
        have ht' : t ≠ [] := by simpa using ht
        by_cases hq : 0 ≤ q
        · simp [List.filter_cons, List.filterMap_cons, hjq, hte, ht', hq, ih]
        · simp [List.filter_cons, List.filterMap_cons, hjq, hte, ht', hq, ih]

/-- `Array.prototype.indexOf`: index of the first occurrence, `none` when the
element does not occur (JS returns `-1` there, always tested against `-1`
before use in the engine). -/
def jsIndexOf? {α : Type} [DecidableEq α] : List α → α → Option ℕ
  | [], _ => none
  | x :: xs, a => if x = a then some 0 else (jsIndexOf? xs a).map (· + 1)

/-- Lookup in the LRU recency map (`Map.get`): first matching key. -/
def lruGet : List (Page × ℕ) → Page → Option ℕ
  | [], _ => none
  | (k, v) :: xs, q => if k = q then some v else lruGet xs q

/-- Update of the LRU recency map (`Map.set`): replace the value of an
existing key in place, otherwise append the new entry. -/
def lruSet : List (Page × ℕ) → Page → ℕ → List (Page × ℕ)
  | [], q, v => [(q, v)]
  | (k, w) :: xs, q, v => if k = q then (q, v) :: xs else (k, w) :: lruSet xs q v

/-! ## Mutable simulation state of one run -/

/-- The engine's per-run mutable state: the frame table `currentFrames`, the
policy bookkeeping (`fifoQueue`, `lruMap`, `referenceBits`, `clockPointer`),
the hit/fault counters, the `forEach` index, and the accumulated step list. -/
structure SimState where
  stepIndex : ℕ
  frames : List (Option Page)
  fifoQueue : List Page
  lruMap : List (Page × ℕ)
  referenceBits : List ℕ
  clockPointer : ℕ
  hits : ℕ
  faults : ℕ
  steps : List SimulationStep
deriving Repr

/-- The step metadata object: pointer and reference bits for CLOCK, empty
(`none`) for every other policy. -/
def mkMetadata (alg : AlgorithmType) (ptr : ℕ) (bits : List ℕ) :
    Option (ℕ × List ℕ) :=
  if alg = AlgorithmType.CLOCK then some (ptr, bits) else none

/-- The HIT branch of the engine: bump the hit counter, update LRU recency or
set the hit slot's CLOCK reference bit, record a step with unchanged frames
and no evicted page. -/
def hitStep (alg : AlgorithmType) (st : SimState) (page : Page) : SimState :=
  let lru' := if alg = AlgorithmType.LRU then lruSet st.lruMap page st.stepIndex else st.lruMap
  let bits' :=
    if alg = AlgorithmType.CLOCK then
      st.referenceBits.set ((jsIndexOf? st.frames (some page)).getD 0) 1
    else st.referenceBits
  { stepIndex := st.stepIndex + 1
    frames := st.frames
    fifoQueue := st.fifoQueue
    lruMap := lru'
    referenceBits := bits'
    clockPointer := st.clockPointer
    hits := st.hits + 1
    faults := st.faults
    steps := st.steps ++
      [{ stepIndex := st.stepIndex
         requestedPage := page
         frames := st.frames
         status := StepStatus.HIT
         replacedPage := none
         metadata := mkMetadata alg st.clockPointer bits' }] }

/-- Shared tail of the FAULT branches: bump the fault counter and record a
step carrying the post-update frame table and bookkeeping. -/
def pushFault (alg : AlgorithmType) (st : SimState) (page : Page)
    (frames' : List (Option Page)) (rep : Option Page) (fifo' : List Page)
    (lru' : List (Page × ℕ)) (bits' : List ℕ) (ptr' : ℕ) : SimState :=
  { stepIndex := st.stepIndex + 1
    frames := frames'
    fifoQueue := fifo'
    lruMap := lru'
    referenceBits := bits'
    clockPointer := ptr'
    hits := st.hits
    faults := st.faults + 1
    steps := st.steps ++
      [{ stepIndex := st.stepIndex
         requestedPage := page
         frames := frames'
         status := StepStatus.FAULT
         replacedPage := rep
         metadata := mkMetadata alg ptr' bits' }] }

/-- FAULT into an empty slot: place the page there, do the policy's load
bookkeeping (FIFO enqueue, LRU recency, CLOCK bit := 1 and pointer advance);
no page is evicted. -/
def fillStep (alg : AlgorithmType) (fc : ℕ) (st : SimState) (page : Page)
    (emptyIndex : ℕ) : SimState :=
  let frames' := st.frames.set emptyIndex (some page)
  let fifo' := if alg = AlgorithmType.FIFO then st.fifoQueue ++ [page] else st.fifoQueue
  let lru' := if alg = AlgorithmType.LRU then lruSet st.lruMap page st.stepIndex else st.lruMap
  let bits' := if alg = AlgorithmType.CLOCK then st.referenceBits.set emptyIndex 1 else st.referenceBits
  let ptr' := if alg = AlgorithmType.CLOCK then (st.clockPointer + 1) % fc else st.clockPointer
  pushFault alg st page frames' none fifo' lru' bits' ptr'

/-- FIFO replacement: `shift()` the queue head as victim (when the queue is
nonempty), overwrite its slot, `push` the new page at the tail. -/
def replaceFIFO (st : SimState) (page : Page) :
    List (Option Page) × Option Page × List Page :=
  match st.fifoQueue with
  | [] => (st.frames, none, st.fifoQueue)
  | e :: rest =>
    let frames' :=
      match jsIndexOf? st.frames (some e) with
      | some i => st.frames.set i (some page)
      | none => st.frames
    (frames', some e, rest ++ [page])

/-- Recorded last access of a page in the LRU map, `-1` when absent
(`lruMap.get(p) ?? -1`). -/
def lastAccessOf (m : List (Page × ℕ)) (p : Page) : ℤ :=
  ((lruGet m p).map (fun n => (n : ℤ))).getD (-1)

/-- The LRU victim scan over the frame slots: keep the resident page with the
smallest recorded last access seen so far (strict `<`, so ties keep the first
slot); the accumulator starts at `(∞, -1)` like `(Infinity, -1)` in the code. -/
def lruScan (m : List (Page × ℕ)) :
    List (Option Page) → WithTop ℤ × Page → WithTop ℤ × Page
  | [], acc => acc
  | none :: fs, acc => lruScan m fs acc
  | some p :: fs, (mn, pte) =>
    if (lastAccessOf m p : WithTop ℤ) < mn then
      lruScan m fs ((lastAccessOf m p : WithTop ℤ), p)
    else lruScan m fs (mn, pte)

/-- LRU replacement: scan for the least-recently-used resident page, evict it
when the `-1` sentinel was overwritten, and in every case record the new
page's recency (the `lruMap.set(page, stepIndex)` outside the `if`). -/
def replaceLRU (st : SimState) (page : Page) :
    List (Option Page) × Option Page × List (Page × ℕ) :=
  let pte := (lruScan st.lruMap st.frames (⊤, -1)).2
  let fr :=
    if pte ≠ (-1 : ℚ) then
      (match jsIndexOf? st.frames (some pte) with
       | some i => st.frames.set i (some page)
       | none => st.frames, some pte)
    else (st.frames, (none : Option Page))
  (fr.1, fr.2, lruSet st.lruMap page st.stepIndex)

/-- The Optimal victim scan over the frame slots.  Accumulator
`(furthest, pte, isInf)` mirrors `(furthestDistance, pageToEvict, isInfinite)`:
the first resident page with no occurrence in `rest` wins permanently; before
any such page is seen, a strictly larger next-use index replaces the current
candidate (ties keep the first slot). -/
def optScan (rest : List Page) :
    List (Option Page) → WithTop ℤ × Page × Bool → WithTop ℤ × Page × Bool
  | [], acc => acc
  | none :: fs, acc => optScan rest fs acc
  | some p :: fs, (fd, pte, isInf) =>
    match jsIndexOf? rest p with
    | none =>
      if isInf then optScan rest fs (fd, pte, isInf)
      else optScan rest fs (⊤, p, true)
    | some j =>
      if isInf = false ∧ fd < ((j : ℤ) : WithTop ℤ) then
        optScan rest fs (((j : ℤ) : WithTop ℤ), p, isInf)
      else optScan rest fs (fd, pte, isInf)

/-- Optimal replacement: look ahead into the remaining reference suffix and
evict the resident page used furthest in the future (never-again-used pages
take precedence), when the `-1` sentinel was overwritten. -/
def replaceOPT (pages : List Page) (st : SimState) (page : Page) :
    List (Option Page) × Option Page :=
  let rest := pages.drop (st.stepIndex + 1)
  let pte := (optScan rest st.frames (((-1 : ℤ) : WithTop ℤ), -1, false)).2.1
  if pte ≠ (-1 : ℚ) then
    (match jsIndexOf? st.frames (some pte) with
     | some i => st.frames.set i (some page)
     | none => st.frames, some pte)
  else (st.frames, none)

/-- The CLOCK sweep (`while (!found && attempts < frameCount * 3)`): starting
at the pointer, select the current slot when its bit is 0 and advance past it;
otherwise clear the bit and advance.  Returns the selected slot (if any before
the fuel runs out), the reference bits, and the pointer. -/
def clockSweep (fc : ℕ) : ℕ → List ℕ → ℕ → Option ℕ × List ℕ × ℕ
  | 0, bits, ptr => (none, bits, ptr)
  | fuel + 1, bits, ptr =>
    if bits.getD ptr 0 = 0 then (some ptr, bits, (ptr + 1) % fc)
    else clockSweep fc fuel (bits.set ptr 0) ((ptr + 1) % fc)

/-- CLOCK replacement: run the sweep with the defensive `frameCount * 3`
bound; on success evict the selected slot's page, place the new page there and
set its bit to 1; if the sweep ever failed, nothing would be replaced. -/
def replaceCLOCK (fc : ℕ) (st : SimState) (page : Page) :
    List (Option Page) × Option Page × List ℕ × ℕ :=
  match clockSweep fc (fc * 3) st.referenceBits st.clockPointer with
  | (some i, bits1, ptr1) =>
    (st.frames.set i (some page), st.frames.getD i none, bits1.set i 1, ptr1)
  | (none, bits1, ptr1) => (st.frames, none, bits1, ptr1)

/-- FAULT with no empty slot: dispatch to the active policy's victim
selection and bookkeeping. -/
def replaceStep (alg : AlgorithmType) (pages : List Page) (fc : ℕ)
    (st : SimState) (page : Page) : SimState :=
  match alg with
  | AlgorithmType.FIFO =>
    let r := replaceFIFO st page
    pushFault alg st page r.1 r.2.1 r.2.2 st.lruMap st.referenceBits st.clockPointer
  | AlgorithmType.LRU =>
    let r := replaceLRU st page
    pushFault alg st page r.1 r.2.1 st.fifoQueue r.2.2 st.referenceBits st.clockPointer
  | AlgorithmType.OPTIMAL =>
    let r := replaceOPT pages st page
    pushFault alg st page r.1 r.2 st.fifoQueue st.lruMap st.referenceBits st.clockPointer
  | AlgorithmType.CLOCK =>
    let r := replaceCLOCK fc st page
    pushFault alg st page r.1 r.2.1 st.fifoQueue st.lruMap r.2.2.1 r.2.2.2

/-- One iteration of the engine's `forEach` body: hit, empty-slot fill, or
replacement. -/
def stepFn (alg : AlgorithmType) (pages : List Page) (fc : ℕ) (st : SimState)
    (page : Page) : SimState :=
  if some page ∈ st.frames then hitStep alg st page
  else
    match jsIndexOf? st.frames none with
    | some emptyIndex => fillStep alg fc st page emptyIndex
    | none => replaceStep alg pages fc st page

/-- The engine's initial per-run state: `frameCount` empty frames, empty
bookkeeping, pointer 0, zero counters. -/
def initState (fc : ℕ) : SimState :=
  { stepIndex := 0
    frames := List.replicate fc none
    fifoQueue := []
    lruMap := []
    referenceBits := List.replicate fc 0
    clockPointer := 0
    hits := 0
    faults := 0
    steps := [] }

/-- The whole `pages.forEach(...)` loop as a left fold. -/
def simulate (pages : List Page) (fc : ℕ) (alg : AlgorithmType) : SimState :=
  pages.foldl (stepFn alg pages fc) (initState fc)

/-- State of the run just before step `n` (after the first `n` iterations). -/
def stateAt (pages : List Page) (fc : ℕ) (alg : AlgorithmType) (n : ℕ) : SimState :=
  (pages.take n).foldl (stepFn alg pages fc) (initState fc)

/-- Assembly of the final `SimulationResult` from an already-validated page
sequence (the body of `runSimulation` after parsing). -/
def runSimulationCore (pages : List Page) (fc : ℕ) (alg : AlgorithmType) :
    SimulationResult :=
  let fin := simulate pages fc alg
  { algorithm := alg
    steps := fin.steps
    totalHits := fin.hits
    totalFaults := fin.faults
    hitRatio := if pages.length > 0 then (fin.hits : ℚ) / (pages.length : ℚ) else 0
    faultRatio := if pages.length > 0 then (fin.faults : ℚ) / (pages.length : ℚ) else 0 }

/-- `runSimulation` from `src/utils/algorithms.ts`: parse the raw reference
string and run one policy over it.  Total — the source performs no
frame-count validation and raises no error. -/
def runSimulation (rawRefString : String) (frameCount : ℕ)
    (algorithm : AlgorithmType) : SimulationResult :=
  runSimulationCore (parseReferenceString rawRefString) frameCount algorithm

/-- The step record produced by one iteration (the element pushed onto
`steps` by `stepFn`). -/
def stepOut (alg : AlgorithmType) (pages : List Page) (fc : ℕ) (st : SimState)
    (page : Page) : SimulationStep :=
  ((stepFn alg pages fc st page).steps).getD st.steps.length default

/-! ## Basic list lemmas -/

theorem getD_append_len {α : Type} [Inhabited α] (l : List α) (x d : α) :
    (l ++ [x]).getD l.length d = x := by
  induction l with
  | nil => rfl
  | cons a l ih => simp only [List.cons_append, List.length_cons, List.getD_cons_succ]; exact ih

theorem getD_set_self {α : Type} (l : List α) (i : ℕ) (a d : α)
    (h : i < l.length) : (l.set i a).getD i d = a := by
  induction l generalizing i with
  | nil => simp at h
  | cons b l ih =>
    cases i with
    | zero => rfl
    | succ j => simpa using ih j (by simpa using h)

theorem getD_set_ne {α : Type} (l : List α) (i j : ℕ) (a d : α)
    (h : i ≠ j) : (l.set i a).getD j d = l.getD j d := by
  induction l generalizing i j with
  | nil => simp
  | cons b l ih =>
    cases i with
    | zero =>
      cases j with
      | zero => exact absurd rfl h
      | succ k => rfl
    | succ i' =>
      cases j with
      | zero => rfl
      | succ k => simpa using ih i' k (by omega)

theorem mem_set_self {α : Type} (l : List α) (i : ℕ) (a : α)
    (h : i < l.length) : a ∈ l.set i a := by
  induction l generalizing i with
  | nil => simp at h
  | cons b l ih =>
    cases i with
    | zero => simp
    | succ j => simp only [List.set]; exact List.mem_cons.mpr (Or.inr (ih j (by simpa using h)))

theorem mem_set_preserve {α : Type} (l : List α) (i : ℕ) (a b d : α)
    (hb : b ∈ l) (hne : l.getD i d ≠ b) : b ∈ l.set i a := by
  induction l generalizing i with
  | nil => simp at hb
  | cons c l ih =>
    cases i with
    | zero =>
      rcases List.mem_cons.mp hb with h | h
      · exact absurd h.symm hne
      · simpa using Or.inr h
    | succ j =>
      rcases List.mem_cons.mp hb with h | h
      · simp [h]
      · simpa using Or.inr (ih j h hne)

theorem mem_filterMap_id {α : Type} (l : List (Option α)) (a : α) :
    a ∈ l.filterMap id ↔ some a ∈ l := by
  simp [List.mem_filterMap]

/-! ## `jsIndexOf?` lemmas -/

theorem jsIndexOf?_eq_none {α : Type} [DecidableEq α] (l : List α) (a : α) :
    jsIndexOf? l a = none ↔ a ∉ l := by
  induction l with
  | nil => simp [jsIndexOf?]
  | cons b l ih =>
    by_cases h : b = a
    · simp [jsIndexOf?, h]
    · simp [jsIndexOf?, h, ih, Ne.symm h]

theorem jsIndexOf?_isSome {α : Type} [DecidableEq α] (l : List α) (a : α) :
    (jsIndexOf? l a).isSome = true ↔ a ∈ l := by
  rcases h : jsIndexOf? l a with _ | i
  · simpa [h] using (jsIndexOf?_eq_none l a).mp h
  · simp only [Option.isSome_some, true_iff]
    by_contra hmem
    rw [(jsIndexOf?_eq_none l a).mpr hmem] at h
    exact Option.noConfusion h

theorem jsIndexOf?_spec {α : Type} [DecidableEq α] (l : List α) (a : α)
    (i : ℕ) (h : jsIndexOf? l a = some i) :
    i < l.length ∧ ∀ d, l.getD i d = a := by
  induction l generalizing i with
  | nil => exact Option.noConfusion h
  | cons b l ih =>
    by_cases hb : b = a
    · simp only [jsIndexOf?, if_pos hb] at h
      obtain rfl : i = 0 := (Option.some_injective _ h).symm
      exact ⟨by simp, fun d => hb⟩
    · simp only [jsIndexOf?, if_neg hb] at h
      rcases hrec : jsIndexOf? l a with _ | j
      · rw [hrec] at h; exact Option.noConfusion h
      · rw [hrec] at h
        obtain rfl : i = j + 1 := (Option.some_injective _ h).symm
        obtain ⟨h1, h2⟩ := ih j hrec
        exact ⟨by simpa using h1, fun d => by simpa using h2 d⟩

/-! ## Branch dispatch and shape of one step -/

theorem stepFn_hit {st : SimState} {page : Page} (alg : AlgorithmType)
    (pages : List Page) (fc : ℕ) (h : some page ∈ st.frames) :
    stepFn alg pages fc st page = hitStep alg st page := by
  simp [stepFn, h]

theorem stepFn_fill {st : SimState} {page : Page} (alg : AlgorithmType)
    (pages : List Page) (fc : ℕ) (h : some page ∉ st.frames) (e : ℕ)
    (he : jsIndexOf? st.frames none = some e) :
    stepFn alg pages fc st page = fillStep alg fc st page e := by
  simp [stepFn, h, he]

theorem stepFn_replace {st : SimState} {page : Page} (alg : AlgorithmType)
    (pages : List Page) (fc : ℕ) (h : some page ∉ st.frames)
    (hfull : none ∉ st.frames) :
    stepFn alg pages fc st page = replaceStep alg pages fc st page := by
  simp [stepFn, h, (jsIndexOf?_eq_none _ _).mpr hfull]

theorem stepFn_steps_shape (alg : AlgorithmType) (pages : List Page) (fc : ℕ)
    (st : SimState) (page : Page) :
    ∃ r, (stepFn alg pages fc st page).steps = st.steps ++ [r] := by
  by_cases h : some page ∈ st.frames
  · exact ⟨_, by rw [stepFn_hit alg pages fc h]; rfl⟩
  · rcases he : jsIndexOf? st.frames none with _ | e
    · rw [stepFn, if_neg h, he]
      cases alg <;> exact ⟨_, rfl⟩
    · exact ⟨_, by rw [stepFn_fill alg pages fc h e he]; rfl⟩

theorem stepFn_steps (alg : AlgorithmType) (pages : List Page) (fc : ℕ)
    (st : SimState) (page : Page) :
    (stepFn alg pages fc st page).steps =
      st.steps ++ [stepOut alg pages fc st page] := by
  obtain ⟨r, hr⟩ := stepFn_steps_shape alg pages fc st page
  rw [hr, stepOut, hr, getD_append_len]

theorem stepFn_stepIndex (alg : AlgorithmType) (pages : List Page) (fc : ℕ)
    (st : SimState) (page : Page) :
    (stepFn alg pages fc st page).stepIndex = st.stepIndex + 1 := by
  by_cases h : some page ∈ st.frames
  · rw [stepFn_hit alg pages fc h]; rfl
  · rcases he : jsIndexOf? st.frames none with _ | e
    · rw [stepFn, if_neg h, he]
      cases alg <;> rfl
    · rw [stepFn_fill alg pages fc h e he]; rfl

theorem stepFn_counters (alg : AlgorithmType) (pages : List Page) (fc : ℕ)
    (st : SimState) (page : Page) :
    (stepFn alg pages fc st page).hits + (stepFn alg pages fc st page).faults =
      st.hits + st.faults + 1 := by
  by_cases h : some page ∈ st.frames
  · rw [stepFn_hit alg pages fc h]; simp [hitStep]; omega
  · rcases he : jsIndexOf? st.frames none with _ | e
    · rw [stepFn, if_neg h, he]
      cases alg <;> simp [replaceStep, pushFault] <;> omega
    · rw [stepFn_fill alg pages fc h e he]; simp [fillStep, pushFault]; omega

/-! ## `stateAt` machinery -/

theorem stateAt_zero (pages : List Page) (fc : ℕ) (alg : AlgorithmType) :
    stateAt pages fc alg 0 = initState fc := rfl

theorem foldl_stepFn_invariant {alg : AlgorithmType} {pages : List Page}
    {fc : ℕ} (P : SimState → Prop) (l : List Page) (st : SimState)
    (h0 : P st) (hstep : ∀ s p, P s → P (stepFn alg pages fc s p)) :
    P (l.foldl (stepFn alg pages fc) st) := by
  induction l generalizing st with
  | nil => exact h0
  | cons p l ih => exact ih _ (hstep _ _ h0)

theorem stateAt_invariant {alg : AlgorithmType} {pages : List Page} {fc : ℕ}
    (P : SimState → Prop) (h0 : P (initState fc))
    (hstep : ∀ s p, P s → P (stepFn alg pages fc s p)) (n : ℕ) :
    P (stateAt pages fc alg n) :=
  foldl_stepFn_invariant P _ _ h0 hstep

theorem stateAt_succ {pages : List Page} {n : ℕ} (fc : ℕ) (alg : AlgorithmType)
    (h : n < pages.length) :
    stateAt pages fc alg (n + 1) =
      stepFn alg pages fc (stateAt pages fc alg n) (pages.getD n 0) := by
  unfold stateAt
  rw [List.take_succ, List.foldl_append]
  rw [List.getD_eq_getElem _ _ h, List.getElem?_eq_getElem h]
  rfl

theorem stateAt_of_le {pages : List Page} {n : ℕ} (fc : ℕ) (alg : AlgorithmType)
    (h : pages.length ≤ n) : stateAt pages fc alg n = simulate pages fc alg := by
  unfold stateAt simulate
  rw [List.take_of_length_le h]

theorem stateAt_stepIndex {pages : List Page} (fc : ℕ) (alg : AlgorithmType)
    (n : ℕ) (h : n ≤ pages.length) : (stateAt pages fc alg n).stepIndex = n := by
  have gen : ∀ (l : List Page) (st : SimState),
      (l.foldl (stepFn alg pages fc) st).stepIndex = st.stepIndex + l.length := by
    intro l
    induction l with
    | nil => intro st; simp
    | cons p l ih =>
      intro st
      simp only [List.foldl_cons, ih, stepFn_stepIndex, List.length_cons]
      omega
  unfold stateAt
  rw [gen]
  simp [initState, List.length_take, Nat.min_eq_left h]

theorem stateAt_steps_length {pages : List Page} (fc : ℕ) (alg : AlgorithmType)
    (n : ℕ) (h : n ≤ pages.length) :
    (stateAt pages fc alg n).steps.length = n := by
  have gen : ∀ (l : List Page) (st : SimState),
      (l.foldl (stepFn alg pages fc) st).steps.length = st.steps.length + l.length := by
    intro l
    induction l with
    | nil => intro st; simp
    | cons p l ih =>
      intro st
      simp only [List.foldl_cons, ih, stepFn_steps, List.length_append,
        List.length_cons, List.length_nil]
      omega
  unfold stateAt
  rw [gen]
  simp [initState, List.length_take, Nat.min_eq_left h]

theorem steps_getD_stateAt {pages : List Page} (fc : ℕ) (alg : AlgorithmType)
    {i : ℕ} (hi : i < pages.length) :
    ∀ n, i < n → (stateAt pages fc alg n).steps.getD i default =
      stepOut alg pages fc (stateAt pages fc alg i) (pages.getD i 0) := by
  intro n
  induction n with
  | zero => omega
  | succ m ih =>
    intro hm
    by_cases hml : m < pages.length
    · rw [stateAt_succ fc alg hml, stepFn_steps]
      rcases Nat.lt_or_ge i m with him | him
      · rw [List.getD_append _ _ _ _ (by rw [stateAt_steps_length fc alg m (Nat.le_of_lt hml)]; omega)]
        exact ih him
      · obtain rfl : i = m := by omega
        have hlen : (stateAt pages fc alg i).steps.length = i :=
          stateAt_steps_length fc alg i (Nat.le_of_lt hi)
        have hg := getD_append_len (stateAt pages fc alg i).steps
          (stepOut alg pages fc (stateAt pages fc alg i) (pages.getD i 0)) default
        rw [hlen] at hg
        exact hg
    · rw [stateAt_of_le fc alg (by omega), ← stateAt_of_le fc alg (show pages.length ≤ m by omega)]
      exact ih (by omega)

theorem result_steps_getD {pages : List Page} (fc : ℕ) (alg : AlgorithmType)
    {i : ℕ} (hi : i < pages.length) :
    (runSimulationCore pages fc alg).steps.getD i default =
      stepOut alg pages fc (stateAt pages fc alg i) (pages.getD i 0) := by
  have h := steps_getD_stateAt fc alg hi pages.length hi
  rw [stateAt_of_le fc alg (Nat.le_refl _)] at h
  exact h

/-! ## The record produced in each branch -/

theorem pushFault_getD (alg : AlgorithmType) (st : SimState) (page : Page)
    (f : List (Option Page)) (rep : Option Page) (q : List Page)
    (m : List (Page × ℕ)) (b : List ℕ) (p : ℕ) :
    ((pushFault alg st page f rep q m b p).steps).getD st.steps.length default =
      { stepIndex := st.stepIndex, requestedPage := page, frames := f,
        status := StepStatus.FAULT, replacedPage := rep,
        metadata := mkMetadata alg p b } := by
  simp only [pushFault]
  exact getD_append_len _ _ _

theorem stepOut_hit {st : SimState} {page : Page} (alg : AlgorithmType)
    (pages : List Page) (fc : ℕ) (h : some page ∈ st.frames) :
    stepOut alg pages fc st page =
      { stepIndex := st.stepIndex, requestedPage := page, frames := st.frames,
        status := StepStatus.HIT, replacedPage := none,
        metadata := mkMetadata alg st.clockPointer
          (if alg = AlgorithmType.CLOCK then
            st.referenceBits.set ((jsIndexOf? st.frames (some page)).getD 0) 1
          else st.referenceBits) } := by
  rw [stepOut, stepFn_hit alg pages fc h]
  simp only [hitStep]
  exact getD_append_len _ _ _

theorem stepOut_fill {st : SimState} {page : Page} (alg : AlgorithmType)
    (pages : List Page) (fc : ℕ) (h : some page ∉ st.frames) (e : ℕ)
    (he : jsIndexOf? st.frames none = some e) :
    stepOut alg pages fc st page =
      { stepIndex := st.stepIndex, requestedPage := page,
        frames := st.frames.set e (some page),
        status := StepStatus.FAULT, replacedPage := none,
        metadata := mkMetadata alg
          (if alg = AlgorithmType.CLOCK then (st.clockPointer + 1) % fc
           else st.clockPointer)
          (if alg = AlgorithmType.CLOCK then st.referenceBits.set e 1
           else st.referenceBits) } := by
  rw [stepOut, stepFn_fill alg pages fc h e he]
  simp only [fillStep]
  exact pushFault_getD _ _ _ _ _ _ _ _ _

theorem stepOut_replace_FIFO {st : SimState} {page : Page} (pages : List Page)
    (fc : ℕ) (h : some page ∉ st.frames) (hfull : none ∉ st.frames) :
    stepOut AlgorithmType.FIFO pages fc st page =
      { stepIndex := st.stepIndex, requestedPage := page,
        frames := (replaceFIFO st page).1,
        status := StepStatus.FAULT, replacedPage := (replaceFIFO st page).2.1,
        metadata := mkMetadata AlgorithmType.FIFO st.clockPointer st.referenceBits } := by
  rw [stepOut, stepFn_replace AlgorithmType.FIFO pages fc h hfull]
  simp only [replaceStep]
  exact pushFault_getD _ _ _ _ _ _ _ _ _

theorem stepOut_replace_LRU {st : SimState} {page : Page} (pages : List Page)
    (fc : ℕ) (h : some page ∉ st.frames) (hfull : none ∉ st.frames) :
    stepOut AlgorithmType.LRU pages fc st page =
      { stepIndex := st.stepIndex, requestedPage := page,
        frames := (replaceLRU st page).1,
        status := StepStatus.FAULT, replacedPage := (replaceLRU st page).2.1,
        metadata := mkMetadata AlgorithmType.LRU st.clockPointer st.referenceBits } := by
  rw [stepOut, stepFn_replace AlgorithmType.LRU pages fc h hfull]
  simp only [replaceStep]
  exact pushFault_getD _ _ _ _ _ _ _ _ _

theorem stepOut_replace_OPTIMAL {st : SimState} {page : Page} (pages : List Page)
    (fc : ℕ) (h : some page ∉ st.frames) (hfull : none ∉ st.frames) :
    stepOut AlgorithmType.OPTIMAL pages fc st page =
      { stepIndex := st.stepIndex, requestedPage := page,
        frames := (replaceOPT pages st page).1,
        status := StepStatus.FAULT, replacedPage := (replaceOPT pages st page).2,
        metadata := mkMetadata AlgorithmType.OPTIMAL st.clockPointer st.referenceBits } := by
  rw [stepOut, stepFn_replace AlgorithmType.OPTIMAL pages fc h hfull]
  simp only [replaceStep]
  exact pushFault_getD _ _ _ _ _ _ _ _ _

theorem stepOut_replace_CLOCK {st : SimState} {page : Page} (pages : List Page)
    (fc : ℕ) (h : some page ∉ st.frames) (hfull : none ∉ st.frames) :
    stepOut AlgorithmType.CLOCK pages fc st page =
      { stepIndex := st.stepIndex, requestedPage := page,
        frames := (replaceCLOCK fc st page).1,
        status := StepStatus.FAULT, replacedPage := (replaceCLOCK fc st page).2.1,
        metadata := mkMetadata AlgorithmType.CLOCK (replaceCLOCK fc st page).2.2.2
          (replaceCLOCK fc st page).2.2.1 } := by
  rw [stepOut, stepFn_replace AlgorithmType.CLOCK pages fc h hfull]
  simp only [replaceStep]
  exact pushFault_getD _ _ _ _ _ _ _ _ _

theorem stepOut_frames_eq (alg : AlgorithmType) (pages : List Page) (fc : ℕ)
    (st : SimState) (page : Page) :
    (stepOut alg pages fc st page).frames = (stepFn alg pages fc st page).frames := by
  by_cases h : some page ∈ st.frames
  · rw [stepOut_hit alg pages fc h, stepFn_hit alg pages fc h]; rfl
  · rcases he : jsIndexOf? st.frames none with _ | e
    · have hfull : none ∉ st.frames := (jsIndexOf?_eq_none _ _).mp he
      rw [stepFn_replace alg pages fc h hfull]
      cases alg
      · rw [stepOut_replace_FIFO pages fc h hfull]; rfl
      · rw [stepOut_replace_LRU pages fc h hfull]; rfl
      · rw [stepOut_replace_OPTIMAL pages fc h hfull]; rfl
      · rw [stepOut_replace_CLOCK pages fc h hfull]; rfl
    · rw [stepOut_fill alg pages fc h e he, stepFn_fill alg pages fc h e he]; rfl

/-- C10: a step records an evicted page only on a FAULT with no empty frame;
HIT steps and empty-slot-fill FAULT steps record no evicted page, and a HIT
step's recorded frame table equals the table after the previous step (the
initial all-empty table for step 0). -/
theorem evicted_iff_full_fault (pages : List Page) (fc : ℕ) (alg : AlgorithmType)
    (i : ℕ) (hi : i < pages.length) :
    (((runSimulationCore pages fc alg).steps.getD i default).status = StepStatus.HIT →
      ((runSimulationCore pages fc alg).steps.getD i default).replacedPage = none ∧
      ((runSimulationCore pages fc alg).steps.getD i default).frames =
        (stateAt pages fc alg i).frames) ∧
    (((runSimulationCore pages fc alg).steps.getD i default).status = StepStatus.FAULT →
      none ∈ (stateAt pages fc alg i).frames →
      ((runSimulationCore pages fc alg).steps.getD i default).replacedPage = none) ∧
    (((runSimulationCore pages fc alg).steps.getD i default).replacedPage ≠ none →
      ((runSimulationCore pages fc alg).steps.getD i default).status = StepStatus.FAULT ∧
      none ∉ (stateAt pages fc alg i).frames) ∧
    (stateAt pages fc alg 0).frames = List.replicate fc none ∧
    (0 < i → (stateAt pages fc alg i).frames =
      ((runSimulationCore pages fc alg).steps.getD (i - 1) default).frames) := by
  have hprev : 0 < i → (stateAt pages fc alg i).frames =
      ((runSimulationCore pages fc alg).steps.getD (i - 1) default).frames := by
    intro hpos
    have hi1 : i - 1 < pages.length := by omega
    rw [result_steps_getD fc alg hi1, stepOut_frames_eq,
      ← stateAt_succ fc alg hi1]
    have hieq : i - 1 + 1 = i := by omega
    rw [hieq]
  rw [result_steps_getD fc alg hi]
  by_cases hmem : some (pages.getD i 0) ∈ (stateAt pages fc alg i).frames
  · rw [stepOut_hit alg pages fc hmem]
    refine ⟨fun _ => ⟨rfl, rfl⟩, fun hst => absurd hst (by simp), fun hrep => absurd rfl hrep, rfl, hprev⟩
  · rcases he : jsIndexOf? (stateAt pages fc alg i).frames none with _ | e
    · have hfull : none ∉ (stateAt pages fc alg i).frames := (jsIndexOf?_eq_none _ _).mp he
      cases alg
      · rw [stepOut_replace_FIFO pages fc hmem hfull]
        exact ⟨fun hst => absurd hst (by simp), fun _ hemp => absurd hemp hfull,
          fun _ => ⟨rfl, hfull⟩, rfl, hprev⟩
      · rw [stepOut_replace_LRU pages fc hmem hfull]
        exact ⟨fun hst => absurd hst (by simp), fun _ hemp => absurd hemp hfull,
          fun _ => ⟨rfl, hfull⟩, rfl, hprev⟩
      · rw [stepOut_replace_OPTIMAL pages fc hmem hfull]
        exact ⟨fun hst => absurd hst (by simp), fun _ hemp => absurd hemp hfull,
          fun _ => ⟨rfl, hfull⟩, rfl, hprev⟩
      · rw [stepOut_replace_CLOCK pages fc hmem hfull]
        exact ⟨fun hst => absurd hst (by simp), fun _ hemp => absurd hemp hfull,
          fun _ => ⟨rfl, hfull⟩, rfl, hprev⟩
    · rw [stepOut_fill alg pages fc hmem e he]
      exact ⟨fun hst => absurd hst (by simp), fun _ _ => rfl,
        fun hrep => absurd rfl hrep, rfl, hprev⟩

/-- Witness for C10: on the concrete run `[1,1]` with one frame under FIFO,
step 1 is a HIT and records no evicted page. -/
theorem evicted_iff_full_fault_witness :
    ((runSimulationCore [(1 : ℚ), 1] 1 AlgorithmType.FIFO).steps.getD 1 default).replacedPage = none :=
  ((evicted_iff_full_fault [(1 : ℚ), 1] 1 AlgorithmType.FIFO 1 (by decide)).1 (by decide)).1

/-! ## Counters and ratios (C9) -/

theorem simulate_counters (pages : List Page) (fc : ℕ) (alg : AlgorithmType) :
    (simulate pages fc alg).hits + (simulate pages fc alg).faults = pages.length := by
  have gen : ∀ (l : List Page) (st : SimState),
      (l.foldl (stepFn alg pages fc) st).hits + (l.foldl (stepFn alg pages fc) st).faults =
        st.hits + st.faults + l.length := by
    intro l
    induction l with
    | nil => intro st; simp
    | cons p l ih =>
      intro st
      simp only [List.foldl_cons, List.length_cons]
      rw [ih]
      have := stepFn_counters alg pages fc st p
      omega
  unfold simulate
  rw [gen]
  simp [initState]

/-- C9: with an empty reference sequence both ratios are exactly 0; otherwise
`hitRatio = totalHits / n`, `faultRatio = totalFaults / n`, and their sum is
exactly 1 (as rationals), since every step is exactly one of hit or fault. -/
theorem hit_fault_ratio_identity (pages : List Page) (fc : ℕ) (alg : AlgorithmType) :
    (pages = [] → (runSimulationCore pages fc alg).hitRatio = 0 ∧
      (runSimulationCore pages fc alg).faultRatio = 0) ∧
    (pages ≠ [] →
      (runSimulationCore pages fc alg).hitRatio =
        ((runSimulationCore pages fc alg).totalHits : ℚ) / (pages.length : ℚ) ∧
      (runSimulationCore pages fc alg).faultRatio =
        ((runSimulationCore pages fc alg).totalFaults : ℚ) / (pages.length : ℚ) ∧
      (runSimulationCore pages fc alg).hitRatio +
        (runSimulationCore pages fc alg).faultRatio = 1) := by
  constructor
  · rintro rfl
    simp [runSimulationCore]
  · intro hne
    have hpos : 0 < pages.length := List.length_pos.mpr hne
    have hcast : ((pages.length : ℚ)) ≠ 0 := by
      exact_mod_cast Nat.pos_iff_ne_zero.mp hpos
    refine ⟨by simp [runSimulationCore, hpos], by simp [runSimulationCore, hpos], ?_⟩
    simp only [runSimulationCore, if_pos hpos]
    rw [div_add_div_same, ← Nat.cast_add, simulate_counters, div_self hcast]

/-- Witness for C9: on the one-element run `[5]` with one LRU frame, the two
ratios sum to exactly 1. -/
theorem hit_fault_ratio_identity_witness :
    (runSimulationCore [(5 : ℚ)] 1 AlgorithmType.LRU).hitRatio +
      (runSimulationCore [(5 : ℚ)] 1 AlgorithmType.LRU).faultRatio = 1 :=
  ((hit_fault_ratio_identity [(5 : ℚ)] 1 AlgorithmType.LRU).2 (by decide)).2.2

/-! ## The frame-table invariant (C8) -/

theorem nodup_set_fresh {a : Page} :
    ∀ (l : List (Option Page)) (i : ℕ), (l.filterMap id).Nodup → some a ∉ l →
      ((l.set i (some a)).filterMap id).Nodup := by
  intro l
  induction l with
  | nil => intro i _ _; simp
  | cons x l ih =>
    intro i hn ha
    have hal : some a ∉ l := fun h => ha (List.mem_cons.mpr (Or.inr h))
    cases i with
    | zero =>
      simp only [List.set, List.filterMap_cons, id, List.nodup_cons]
      refine ⟨fun hmem => ?_, ?_⟩
      · exact hal ((mem_filterMap_id l a).mp hmem)
      · cases x with
        | none => simpa using hn
        | some v =>
          have hvl : some v ∉ l ∧ (l.filterMap id).Nodup := by simpa using hn
          exact hvl.2
    | succ j =>
      cases x with
      | none =>
        simp only [List.set, List.filterMap_cons, id]
        exact ih j (by simpa using hn) hal
      | some v =>
        simp only [List.set, List.filterMap_cons, id, List.nodup_cons]
        have hn' : some v ∉ l ∧ (l.filterMap id).Nodup := by simpa using hn
        refine ⟨fun hmem => ?_, ih j hn'.2 hal⟩
        rcases List.mem_or_eq_of_mem_set ((mem_filterMap_id _ v).mp hmem) with h | h
        · exact hn'.1 h
        · have hva : v = a := Option.some_injective _ h
          exact ha (by rw [← hva]; exact List.mem_cons_self _ _)

theorem stepFn_frames_shape (alg : AlgorithmType) (pages : List Page) (fc : ℕ)
    (st : SimState) (page : Page) :
    (stepFn alg pages fc st page).frames = st.frames ∨
      ∃ i, (stepFn alg pages fc st page).frames = st.frames.set i (some page) := by
  by_cases h : some page ∈ st.frames
  · rw [stepFn_hit alg pages fc h]; exact Or.inl rfl
  · rcases he : jsIndexOf? st.frames none with _ | e
    · have hfull : none ∉ st.frames := (jsIndexOf?_eq_none _ _).mp he
      rw [stepFn_replace alg pages fc h hfull]
      cases alg
      · rcases hq : st.fifoQueue with _ | ⟨q, rest⟩
        · simp only [replaceStep, pushFault, replaceFIFO, hq]
          exact Or.inl trivial
        · rcases hidx : jsIndexOf? st.frames (some q) with _ | i
          · simp only [replaceStep, pushFault, replaceFIFO, hq, hidx]
            exact Or.inl trivial
          · simp only [replaceStep, pushFault, replaceFIFO, hq, hidx]
            exact Or.inr ⟨i, rfl⟩
      · simp only [replaceStep, pushFault, replaceLRU]
        by_cases hp : (lruScan st.lruMap st.frames (⊤, -1)).2 ≠ (-1 : ℚ)
        · rw [if_pos hp]
          rcases hidx : jsIndexOf? st.frames (some (lruScan st.lruMap st.frames (⊤, -1)).2) with _ | i
          · simp only [hidx]; exact Or.inl trivial
          · simp only [hidx]; exact Or.inr ⟨i, rfl⟩
        · rw [if_neg hp]; exact Or.inl rfl
      · simp only [replaceStep, pushFault, replaceOPT]
        by_cases hp : (optScan (pages.drop (st.stepIndex + 1)) st.frames
            (((-1 : ℤ) : WithTop ℤ), -1, false)).2.1 ≠ (-1 : ℚ)
        · rw [if_pos hp]
          rcases hidx : jsIndexOf? st.frames (some (optScan (pages.drop (st.stepIndex + 1)) st.frames
              (((-1 : ℤ) : WithTop ℤ), -1, false)).2.1) with _ | i
          · simp only [hidx]; exact Or.inl trivial
          · simp only [hidx]; exact Or.inr ⟨i, rfl⟩
        · rw [if_neg hp]; exact Or.inl rfl
      · rcases hsw : clockSweep fc (fc * 3) st.referenceBits st.clockPointer with ⟨_ | i, bits1, ptr1⟩
        · simp only [replaceStep, pushFault, replaceCLOCK, hsw]
          exact Or.inl trivial
        · simp only [replaceStep, pushFault, replaceCLOCK, hsw]
          exact Or.inr ⟨i, rfl⟩
    · rw [stepFn_fill alg pages fc h e he]
      exact Or.inr ⟨e, rfl⟩

theorem frames_invariant (pages : List Page) (fc : ℕ) (alg : AlgorithmType) (n : ℕ) :
    (stateAt pages fc alg n).frames.length = fc ∧
      ((stateAt pages fc alg n).frames.filterMap id).Nodup ∧
      ∀ s ∈ (stateAt pages fc alg n).steps,
        s.frames.length = fc ∧ (s.frames.filterMap id).Nodup := by
  refine stateAt_invariant
    (fun st => st.frames.length = fc ∧ (st.frames.filterMap id).Nodup ∧
      ∀ s ∈ st.steps, s.frames.length = fc ∧ (s.frames.filterMap id).Nodup) ?_ ?_ n
  · refine ⟨by simp [initState], by simp [initState], by simp [initState]⟩
  · rintro st p ⟨hlen, hnd, hsteps⟩
    have hfr : (stepFn alg pages fc st p).frames.length = fc ∧
        ((stepFn alg pages fc st p).frames.filterMap id).Nodup := by
      by_cases hmem : some p ∈ st.frames
      · rw [stepFn_hit alg pages fc hmem]
        exact ⟨hlen, hnd⟩
      · rcases stepFn_frames_shape alg pages fc st p with h | ⟨i, h⟩
        · rw [h]; exact ⟨hlen, hnd⟩
        · rw [h]
          exact ⟨by simpa using hlen, nodup_set_fresh _ i hnd hmem⟩
    refine ⟨hfr.1, hfr.2, ?_⟩
    rw [stepFn_steps]
    intro s hs
    rcases List.mem_append.mp hs with hs | hs
    · exact hsteps s hs
    · have : s = stepOut alg pages fc st p := by simpa using hs
      rw [this, stepOut_frames_eq]
      exact hfr

/-- C8: in every run (any positive frame count, any policy) the frame-table
snapshot recorded in every simulation step has length exactly `frameCount` and
holds no page in two slots, and the invariant holds for the initial all-empty
table and for every intermediate state of the run. -/
theorem frame_table_invariant (pages : List Page) (fc : ℕ) (alg : AlgorithmType)
    (_hfc : 1 ≤ fc) :
    ((initState fc).frames.length = fc ∧ ((initState fc).frames.filterMap id).Nodup) ∧
    (∀ n, (stateAt pages fc alg n).frames.length = fc ∧
      ((stateAt pages fc alg n).frames.filterMap id).Nodup) ∧
    ∀ s ∈ (runSimulationCore pages fc alg).steps,
      s.frames.length = fc ∧ (s.frames.filterMap id).Nodup := by
  refine ⟨⟨by simp [initState], by simp [initState]⟩,
    fun n => ⟨(frames_invariant pages fc alg n).1, (frames_invariant pages fc alg n).2.1⟩, ?_⟩
  intro s hs
  have hsim : (runSimulationCore pages fc alg).steps = (stateAt pages fc alg pages.length).steps := by
    rw [stateAt_of_le fc alg (Nat.le_refl _)]; rfl
  rw [hsim] at hs
  exact (frames_invariant pages fc alg pages.length).2.2 s hs

/-- Witness for C8: the step recorded by the concrete run `[1,2]` with one
FIFO frame has a one-slot frame table. -/
theorem frame_table_invariant_witness :
    ((runSimulationCore [(1 : ℚ), 2] 1 AlgorithmType.FIFO).steps.getD 0 default).frames.length = 1 :=
  ((frame_table_invariant [(1 : ℚ), 2] 1 AlgorithmType.FIFO (by decide)).2.2
    ((runSimulationCore [(1 : ℚ), 2] 1 AlgorithmType.FIFO).steps.getD 0 default)
    (by decide)).1

/-! ## FIFO: queue invariant and victim choice (C5) -/

theorem filterMap_id_length_set (l : List (Option Page)) (i : ℕ) (a : Page)
    (h : i < l.length) :
    ((l.set i (some a)).filterMap id).length =
      (l.filterMap id).length + (if l.getD i none = none then 1 else 0) := by
  induction l generalizing i with
  | nil => simp at h
  | cons x l ih =>
    cases i with
    | zero =>
      cases x with
      | none => simp
      | some v => simp
    | succ j =>
      have hj : j < l.length := by simpa using h
      have hrec := ih j hj
      cases x with
      | none =>
        simp only [List.set, List.filterMap_cons, id, List.getD_cons_succ]
        exact hrec
      | some v =>
        simp only [List.set, List.filterMap_cons, id, List.length_cons, List.getD_cons_succ]
        rw [hrec, Nat.add_right_comm]

theorem length_filterMap_id_of_full (l : List (Option Page)) (h : none ∉ l) :
    (l.filterMap id).length = l.length := by
  induction l with
  | nil => simp
  | cons x l ih =>
    cases x with
    | none => exact absurd (List.mem_cons_self _ _) h
    | some v =>
      have : none ∉ l := fun hm => h (List.mem_cons.mpr (Or.inr hm))
      simpa using ih this

/-- The FIFO bookkeeping invariant: the queue lists resident pages without
repetition, one queue entry per occupied frame slot. -/
def FifoInv (fc : ℕ) (st : SimState) : Prop :=
  st.fifoQueue.Nodup ∧ (∀ p ∈ st.fifoQueue, some p ∈ st.frames) ∧
  st.fifoQueue.length = (st.frames.filterMap id).length ∧
  st.frames.length = fc

theorem fifo_invariant (pages : List Page) (fc : ℕ) (n : ℕ) :
    FifoInv fc (stateAt pages fc AlgorithmType.FIFO n) := by
  refine stateAt_invariant (FifoInv fc) ⟨by simp [initState], by simp [initState],
    by simp [initState], by simp [initState]⟩ ?_ n
  rintro st p ⟨hnd, hmem, hlen, hflen⟩
  by_cases hp : some p ∈ st.frames
  · rw [stepFn_hit AlgorithmType.FIFO pages fc hp]
    exact ⟨hnd, hmem, hlen, hflen⟩
  · have hpq : p ∉ st.fifoQueue := fun hin => hp (hmem p hin)
    rcases he : jsIndexOf? st.frames none with _ | e
    · have hfull : none ∉ st.frames := (jsIndexOf?_eq_none _ _).mp he
      rw [stepFn_replace AlgorithmType.FIFO pages fc hp hfull]
      rcases hq : st.fifoQueue with _ | ⟨e', rest⟩
      · have hframes : (replaceStep AlgorithmType.FIFO pages fc st p).frames = st.frames := by
          simp [replaceStep, pushFault, replaceFIFO, hq]
        have hfifo : (replaceStep AlgorithmType.FIFO pages fc st p).fifoQueue = st.fifoQueue := by
          simp [replaceStep, pushFault, replaceFIFO, hq]
        rw [FifoInv, hframes, hfifo]
        exact ⟨hnd, hmem, hlen, hflen⟩
      · have her : some e' ∈ st.frames := hmem e' (by rw [hq]; exact List.mem_cons_self _ _)
        obtain ⟨idx, hidx⟩ : ∃ idx, jsIndexOf? st.frames (some e') = some idx := by
          rcases hfound : jsIndexOf? st.frames (some e') with _ | idx
          · exact absurd ((jsIndexOf?_eq_none _ _).mp hfound) (by simpa using her)
          · exact ⟨idx, rfl⟩
        obtain ⟨hidxlt, hidxget⟩ := jsIndexOf?_spec _ _ _ hidx
        have hframes : (replaceStep AlgorithmType.FIFO pages fc st p).frames =
            st.frames.set idx (some p) := by
          simp [replaceStep, pushFault, replaceFIFO, hq, hidx]
        have hfifo : (replaceStep AlgorithmType.FIFO pages fc st p).fifoQueue =
            rest ++ [p] := by
          simp [replaceStep, pushFault, replaceFIFO, hq, hidx]
        have hnd' : e' ∉ rest ∧ rest.Nodup := List.nodup_cons.mp (hq ▸ hnd)
        have hrestmem : ∀ x ∈ rest, some x ∈ st.frames :=
          fun x hx => hmem x (by rw [hq]; exact List.mem_cons.mpr (Or.inr hx))
        have hprest : p ∉ rest := fun hx => hpq (by rw [hq]; exact List.mem_cons.mpr (Or.inr hx))
        rw [FifoInv, hframes, hfifo]
        refine ⟨?_, ?_, ?_, by simpa using hflen⟩
        · rw [List.nodup_append]
          refine ⟨hnd'.2, List.nodup_singleton _, fun x hx hx1 => ?_⟩
          have hxp : x = p := by simpa using hx1
          exact hprest (hxp ▸ hx)
        · intro x hx
          rcases List.mem_append.mp hx with hx | hx
          · have hxe : x ≠ e' := fun hxe => hnd'.1 (hxe ▸ hx)
            refine mem_set_preserve _ idx _ _ none (hrestmem x hx) ?_
            rw [hidxget none]
            exact fun hc => hxe (Option.some_injective _ hc).symm
          · have hxp : x = p := by simpa using hx
            rw [hxp]
            exact mem_set_self _ idx _ hidxlt
        · rw [filterMap_id_length_set _ idx _ hidxlt, hidxget none]
          rw [if_neg (by simp : ¬(some e' : Option Page) = none)]
          have hlen' : rest.length + 1 = (st.frames.filterMap id).length := by
            rw [← hlen, hq]; simp
          simp only [List.length_append, List.length_cons, List.length_nil, Nat.add_zero]
          omega
    · rw [stepFn_fill AlgorithmType.FIFO pages fc hp e he]
      obtain ⟨helt, heget⟩ := jsIndexOf?_spec _ _ _ he
      have hframes : (fillStep AlgorithmType.FIFO fc st p e).frames =
          st.frames.set e (some p) := by
        simp [fillStep, pushFault]
      have hfifo : (fillStep AlgorithmType.FIFO fc st p e).fifoQueue =
          st.fifoQueue ++ [p] := by
        simp [fillStep, pushFault]
      rw [FifoInv, hframes, hfifo]
      refine ⟨?_, ?_, ?_, by simpa using hflen⟩
      · rw [List.nodup_append]
        refine ⟨hnd, List.nodup_singleton _, fun x hx hx1 => ?_⟩
        have hxp : x = p := by simpa using hx1
        exact hpq (hxp ▸ hx)
      · intro x hx
        rcases List.mem_append.mp hx with hx | hx
        · refine mem_set_preserve _ e _ _ none (hmem x hx) ?_
          rw [heget none]
          simp
        · have hxp : x = p := by simpa using hx
          rw [hxp]
          exact mem_set_self _ e _ helt
      · rw [filterMap_id_length_set _ e _ helt, heget none, if_pos rfl]
        simp only [List.length_append, List.length_cons, List.length_nil, Nat.add_zero]
        omega

/-- C5: under FIFO, on every fault with no empty frame the evicted page is the
head of the insertion-order queue (the earliest-enqueued resident page: every
queue entry is resident); the head is dequeued and the newly loaded page is
enqueued at the tail. -/
theorem fifo_evicts_queue_head (pages : List Page) (fc : ℕ) (hfc : 1 ≤ fc)
    (i : ℕ) (hi : i < pages.length)
    (hmiss : some (pages.getD i 0) ∉ (stateAt pages fc AlgorithmType.FIFO i).frames)
    (hfull : none ∉ (stateAt pages fc AlgorithmType.FIFO i).frames) :
    (stateAt pages fc AlgorithmType.FIFO i).fifoQueue ≠ [] ∧
    (∀ p ∈ (stateAt pages fc AlgorithmType.FIFO i).fifoQueue,
      some p ∈ (stateAt pages fc AlgorithmType.FIFO i).frames) ∧
    ((runSimulationCore pages fc AlgorithmType.FIFO).steps.getD i default).replacedPage =
      (stateAt pages fc AlgorithmType.FIFO i).fifoQueue.head? ∧
    (stateAt pages fc AlgorithmType.FIFO (i + 1)).fifoQueue =
      (stateAt pages fc AlgorithmType.FIFO i).fifoQueue.tail ++ [pages.getD i 0] := by
  obtain ⟨hnd, hmem, hlen, hflen⟩ := fifo_invariant pages fc i
  have hqne : (stateAt pages fc AlgorithmType.FIFO i).fifoQueue ≠ [] := by
    intro hq
    have h1 := hlen
    rw [hq, length_filterMap_id_of_full _ hfull, hflen] at h1
    simp only [List.length_nil] at h1
    omega
  obtain ⟨e, rest, hq⟩ : ∃ e rest,
      (stateAt pages fc AlgorithmType.FIFO i).fifoQueue = e :: rest := by
    rcases hqq : (stateAt pages fc AlgorithmType.FIFO i).fifoQueue with _ | ⟨e, rest⟩
    · exact absurd hqq hqne
    · exact ⟨e, rest, rfl⟩
  refine ⟨hqne, hmem, ?_, ?_⟩
  · rw [result_steps_getD fc AlgorithmType.FIFO hi,
      stepOut_replace_FIFO pages fc hmiss hfull]
    simp [replaceFIFO, hq]
  · rw [stateAt_succ fc AlgorithmType.FIFO hi,
      stepFn_replace AlgorithmType.FIFO pages fc hmiss hfull]
    simp [replaceStep, pushFault, replaceFIFO, hq]

/-- Witness for C5: on the run `[1,2,3]` with one frame, step 1 evicts the
queue head. -/
theorem fifo_evicts_queue_head_witness :
    ((runSimulationCore [(1 : ℚ), 2, 3] 1 AlgorithmType.FIFO).steps.getD 1 default).replacedPage =
      (stateAt [(1 : ℚ), 2, 3] 1 AlgorithmType.FIFO 1).fifoQueue.head? :=
  (fifo_evicts_queue_head [(1 : ℚ), 2, 3] 1 (by decide) 1 (by decide)
    (by decide) (by decide)).2.2.1

/-! ## CLOCK: sweep termination and soundness (C6) -/

/-- Number of set reference bits. -/
def onesCount (bits : List ℕ) : ℕ := (bits.filter (fun b => b != 0)).length

theorem onesCount_le_length (bits : List ℕ) : onesCount bits ≤ bits.length :=
  List.length_filter_le _ _

theorem onesCount_set_zero (bits : List ℕ) (i : ℕ) (hi : i < bits.length)
    (hb : bits.getD i 0 ≠ 0) : onesCount (bits.set i 0) + 1 = onesCount bits := by
  induction bits generalizing i with
  | nil => simp at hi
  | cons x l ih =>
    cases i with
    | zero =>
      have hx : x ≠ 0 := by simpa using hb
      simp [onesCount, List.filter_cons, hx]
    | succ j =>
      have hj : j < l.length := by simpa using hi
      have hrec := ih j hj (by simpa using hb)
      simp only [onesCount] at hrec ⊢
      simp only [List.set, List.filter_cons]
      by_cases hx : (x != 0) = true
      · simp only [if_pos hx, List.length_cons]
        omega
      · simp only [if_neg hx]
        omega

theorem getD_set_zero_le (l : List ℕ) (i j : ℕ) :
    (l.set i 0).getD j 0 ≤ l.getD j 0 := by
  induction l generalizing i j with
  | nil => simp
  | cons x l ih =>
    cases i with
    | zero =>
      cases j with
      | zero => simp
      | succ k => simp
    | succ i' =>
      cases j with
      | zero => simp
      | succ k => simpa using ih i' k

theorem clockSweep_zero (fc : ℕ) (bits : List ℕ) (ptr : ℕ) :
    clockSweep fc 0 bits ptr = (none, bits, ptr) := rfl

theorem clockSweep_succ (fc fuel : ℕ) (bits : List ℕ) (ptr : ℕ) :
    clockSweep fc (fuel + 1) bits ptr =
      if bits.getD ptr 0 = 0 then (some ptr, bits, (ptr + 1) % fc)
      else clockSweep fc fuel (bits.set ptr 0) ((ptr + 1) % fc) := rfl

theorem clockSweep_finds (fc : ℕ) :
    ∀ (fuel : ℕ) (bits : List ℕ) (ptr : ℕ), bits.length = fc → ptr < fc →
      onesCount bits + 1 ≤ fuel → (clockSweep fc fuel bits ptr).1.isSome = true := by
  intro fuel
  induction fuel with
  | zero => intro bits ptr _ _ hcnt; omega
  | succ m ih =>
    intro bits ptr hlen hptr hcnt
    rw [clockSweep_succ]
    by_cases hb : bits.getD ptr 0 = 0
    · rw [if_pos hb]
      rfl
    · rw [if_neg hb]
      have hcnt' := onesCount_set_zero bits ptr (by omega) hb
      have hlen' : (bits.set ptr 0).length = fc := by
        rw [List.length_set]; exact hlen
      have hfcpos : 0 < fc := by omega
      have hmod : (ptr + 1) % fc < fc := Nat.mod_lt _ hfcpos
      exact ih _ _ hlen' hmod (by omega)

theorem clockSweep_mono (fc : ℕ) :
    ∀ (fuel : ℕ) (bits : List ℕ) (ptr : ℕ),
      (clockSweep fc fuel bits ptr).1.isSome = true →
      ∀ m, fuel ≤ m → clockSweep fc m bits ptr = clockSweep fc fuel bits ptr := by
  intro fuel
  induction fuel with
  | zero => intro bits ptr h; rw [clockSweep_zero] at h; exact absurd h (by simp)
  | succ k ih =>
    intro bits ptr h m hm
    obtain ⟨m', rfl⟩ : ∃ m', m = m' + 1 := ⟨m - 1, by omega⟩
    rw [clockSweep_succ] at h ⊢
    rw [clockSweep_succ]
    by_cases hb : bits.getD ptr 0 = 0
    · rw [if_pos hb, if_pos hb]
    · rw [if_neg hb] at h ⊢
      rw [if_neg hb]
      exact ih _ _ h m' (by omega)

theorem clockSweep_sound (fc : ℕ) :
    ∀ (fuel : ℕ) (bits : List ℕ) (ptr : ℕ), ptr < fc →
      ∀ v bits' ptr', clockSweep fc fuel bits ptr = (some v, bits', ptr') →
        bits'.getD v 0 = 0 ∧ v < fc ∧ ptr' < fc ∧
        (∀ j, bits'.getD j 0 ≤ bits.getD j 0) := by
  intro fuel
  induction fuel with
  | zero =>
    intro bits ptr _ v bits' ptr' h
    rw [clockSweep_zero] at h
    exact absurd (congrArg Prod.fst h) (by simp)
  | succ k ih =>
    intro bits ptr hptr v bits' ptr' h
    have hfc : 0 < fc := by omega
    rw [clockSweep_succ] at h
    by_cases hb : bits.getD ptr 0 = 0
    · rw [if_pos hb] at h
      rw [Prod.mk.injEq, Prod.mk.injEq] at h
      obtain ⟨h1, h2, h3⟩ := h
      have hv : v = ptr := (Option.some_injective _ h1).symm
      subst hv
      subst h2
      subst h3
      exact ⟨hb, hptr, Nat.mod_lt _ hfc, fun j => Nat.le_refl _⟩
    · rw [if_neg hb] at h
      obtain ⟨h0, hvlt, hp'lt, hle⟩ := ih _ _ (Nat.mod_lt _ hfc) v bits' ptr' h
      exact ⟨h0, hvlt, hp'lt, fun j => Nat.le_trans (hle j) (getD_set_zero_le _ _ _)⟩

theorem clockSweep_state (fc : ℕ) (hfc : 1 ≤ fc) :
    ∀ (fuel : ℕ) (bits : List ℕ) (ptr : ℕ),
      (clockSweep fc fuel bits ptr).2.1.length = bits.length ∧
      ((clockSweep fc fuel bits ptr).2.2 = ptr ∨ (clockSweep fc fuel bits ptr).2.2 < fc) := by
  intro fuel
  induction fuel with
  | zero => intro bits ptr; rw [clockSweep_zero]; exact ⟨rfl, Or.inl rfl⟩
  | succ k ih =>
    intro bits ptr
    rw [clockSweep_succ]
    by_cases hb : bits.getD ptr 0 = 0
    · rw [if_pos hb]
      exact ⟨rfl, Or.inr (Nat.mod_lt _ (by omega))⟩
    · rw [if_neg hb]
      obtain ⟨hlen, hdisj⟩ := ih (bits.set ptr 0) ((ptr + 1) % fc)
      refine ⟨by simpa using hlen, ?_⟩
      rcases hdisj with h | h
      · refine Or.inr ?_
        rw [h]
        exact Nat.mod_lt _ (by omega)
      · exact Or.inr h

/-- The CLOCK bookkeeping invariant: one reference bit per frame slot and an
in-range sweep pointer. -/
def ClockInv (fc : ℕ) (st : SimState) : Prop :=
  st.referenceBits.length = fc ∧ st.clockPointer < fc

theorem clock_invariant (pages : List Page) (fc : ℕ) (hfc : 1 ≤ fc) (n : ℕ) :
    ClockInv fc (stateAt pages fc AlgorithmType.CLOCK n) := by
  refine stateAt_invariant (ClockInv fc) ⟨by simp [initState], by simpa [initState] using hfc⟩ ?_ n
  rintro st p ⟨hlen, hptr⟩
  by_cases hp : some p ∈ st.frames
  · rw [stepFn_hit AlgorithmType.CLOCK pages fc hp]
    exact ⟨by simpa [hitStep] using hlen, by simpa [hitStep] using hptr⟩
  · rcases he : jsIndexOf? st.frames none with _ | e
    · have hfull : none ∉ st.frames := (jsIndexOf?_eq_none _ _).mp he
      rw [stepFn_replace AlgorithmType.CLOCK pages fc hp hfull]
      obtain ⟨hslen, hsdisj⟩ := clockSweep_state fc hfc (fc * 3) st.referenceBits st.clockPointer
      rcases hsw : clockSweep fc (fc * 3) st.referenceBits st.clockPointer with ⟨v?, bits1, ptr1⟩
      rw [hsw] at hslen hsdisj
      simp only at hslen hsdisj
      have hptr1 : ptr1 < fc := by
        rcases hsdisj with h | h
        · rw [h]; exact hptr
        · exact h
      rcases v? with _ | v
      · have hfr : (replaceStep AlgorithmType.CLOCK pages fc st p).referenceBits = bits1 := by
          simp [replaceStep, pushFault, replaceCLOCK, hsw]
        have hpt : (replaceStep AlgorithmType.CLOCK pages fc st p).clockPointer = ptr1 := by
          simp [replaceStep, pushFault, replaceCLOCK, hsw]
        rw [ClockInv, hfr, hpt]
        exact ⟨by rw [hslen]; exact hlen, hptr1⟩
      · have hfr : (replaceStep AlgorithmType.CLOCK pages fc st p).referenceBits = bits1.set v 1 := by
          simp [replaceStep, pushFault, replaceCLOCK, hsw]
        have hpt : (replaceStep AlgorithmType.CLOCK pages fc st p).clockPointer = ptr1 := by
          simp [replaceStep, pushFault, replaceCLOCK, hsw]
        rw [ClockInv, hfr, hpt]
        exact ⟨by rw [List.length_set, hslen]; exact hlen, hptr1⟩
    · rw [stepFn_fill AlgorithmType.CLOCK pages fc hp e he]
      have hbfill : (fillStep AlgorithmType.CLOCK fc st p e).referenceBits =
          st.referenceBits.set e 1 := by
        simp [fillStep, pushFault]
      have hpfill : (fillStep AlgorithmType.CLOCK fc st p e).clockPointer =
          (st.clockPointer + 1) % fc := by
        simp [fillStep, pushFault]
      rw [ClockInv, hbfill, hpfill]
      exact ⟨by simpa using hlen, Nat.mod_lt _ (by omega)⟩

theorem getD_ne_none_of_full (l : List (Option Page)) (v : ℕ) (hv : v < l.length)
    (h : none ∉ l) : l.getD v none ≠ none := by
  intro hc
  rw [List.getD_eq_getElem l none hv] at hc
  exact h (hc ▸ List.getElem_mem hv)

/-- C6: under CLOCK (any positive frame count), on every fault requiring
eviction the sweep over the reference bits finds a victim within `2·frameCount`
visits — the `2·frameCount`-fuel sweep already equals the defensive
`3·frameCount`-fuel sweep the code runs, so the defensive bound is never
exceeded and the no-victim branch is unreachable (the step records an evicted
page) — the selected slot's bit is 0 at the moment of selection, and the sweep
only ever clears bits (every bit-1 slot it passes is cleared). -/
theorem clock_sweep_selects_zero_bit (pages : List Page) (fc : ℕ) (hfc : 1 ≤ fc)
    (i : ℕ) (hi : i < pages.length)
    (hmiss : some (pages.getD i 0) ∉ (stateAt pages fc AlgorithmType.CLOCK i).frames)
    (hfull : none ∉ (stateAt pages fc AlgorithmType.CLOCK i).frames) :
    (clockSweep fc (fc * 3) (stateAt pages fc AlgorithmType.CLOCK i).referenceBits
      (stateAt pages fc AlgorithmType.CLOCK i).clockPointer).1.isSome = true ∧
    clockSweep fc (fc * 2) (stateAt pages fc AlgorithmType.CLOCK i).referenceBits
      (stateAt pages fc AlgorithmType.CLOCK i).clockPointer =
      clockSweep fc (fc * 3) (stateAt pages fc AlgorithmType.CLOCK i).referenceBits
        (stateAt pages fc AlgorithmType.CLOCK i).clockPointer ∧
    (clockSweep fc (fc * 3) (stateAt pages fc AlgorithmType.CLOCK i).referenceBits
      (stateAt pages fc AlgorithmType.CLOCK i).clockPointer).2.1.getD
      ((clockSweep fc (fc * 3) (stateAt pages fc AlgorithmType.CLOCK i).referenceBits
        (stateAt pages fc AlgorithmType.CLOCK i).clockPointer).1.getD 0) 0 = 0 ∧
    (∀ j, (clockSweep fc (fc * 3) (stateAt pages fc AlgorithmType.CLOCK i).referenceBits
      (stateAt pages fc AlgorithmType.CLOCK i).clockPointer).2.1.getD j 0 ≤
      (stateAt pages fc AlgorithmType.CLOCK i).referenceBits.getD j 0) ∧
    ((runSimulationCore pages fc AlgorithmType.CLOCK).steps.getD i default).replacedPage ≠
      none := by
  obtain ⟨hblen, hptr⟩ := clock_invariant pages fc hfc i
  have hcnt3 : onesCount (stateAt pages fc AlgorithmType.CLOCK i).referenceBits + 1 ≤ fc * 3 := by
    have := onesCount_le_length (stateAt pages fc AlgorithmType.CLOCK i).referenceBits
    omega
  have hcnt2 : onesCount (stateAt pages fc AlgorithmType.CLOCK i).referenceBits + 1 ≤ fc * 2 := by
    have := onesCount_le_length (stateAt pages fc AlgorithmType.CLOCK i).referenceBits
    omega
  have hfind3 := clockSweep_finds fc (fc * 3) _ _ hblen hptr hcnt3
  have hfind2 := clockSweep_finds fc (fc * 2) _ _ hblen hptr hcnt2
  have heq : clockSweep fc (fc * 3) (stateAt pages fc AlgorithmType.CLOCK i).referenceBits
      (stateAt pages fc AlgorithmType.CLOCK i).clockPointer =
      clockSweep fc (fc * 2) (stateAt pages fc AlgorithmType.CLOCK i).referenceBits
        (stateAt pages fc AlgorithmType.CLOCK i).clockPointer :=
    clockSweep_mono fc (fc * 2) _ _ hfind2 (fc * 3) (by omega)
  obtain ⟨v, bits', ptr', hsw⟩ : ∃ v bits' ptr',
      clockSweep fc (fc * 3) (stateAt pages fc AlgorithmType.CLOCK i).referenceBits
        (stateAt pages fc AlgorithmType.CLOCK i).clockPointer = (some v, bits', ptr') := by
    rcases hsw : clockSweep fc (fc * 3) (stateAt pages fc AlgorithmType.CLOCK i).referenceBits
        (stateAt pages fc AlgorithmType.CLOCK i).clockPointer with ⟨_ | v, bits', ptr'⟩
    · rw [hsw] at hfind3; exact absurd hfind3 (by simp)
    · exact ⟨v, bits', ptr', rfl⟩
  obtain ⟨hbit, hvlt, hptr', hle⟩ := clockSweep_sound fc (fc * 3) _ _ hptr v bits' ptr' hsw
  refine ⟨hfind3, heq.symm, ?_, ?_, ?_⟩
  · rw [hsw]
    simpa using hbit
  · intro j
    rw [hsw]
    exact hle j
  · rw [result_steps_getD fc AlgorithmType.CLOCK hi,
      stepOut_replace_CLOCK pages fc hmiss hfull]
    have hrep : (replaceCLOCK fc (stateAt pages fc AlgorithmType.CLOCK i) (pages.getD i 0)).2.1 =
        (stateAt pages fc AlgorithmType.CLOCK i).frames.getD v none := by
      simp [replaceCLOCK, hsw]
    simp only [hrep]
    have hflen : (stateAt pages fc AlgorithmType.CLOCK i).frames.length = fc :=
      (frames_invariant pages fc AlgorithmType.CLOCK i).1
    exact getD_ne_none_of_full _ v (by omega) hfull

/-- Witness for C6: on the run `[1,2,3]` with one CLOCK frame, step 1 is a
fault with a full table and records an evicted page. -/
theorem clock_sweep_selects_zero_bit_witness :
    ((runSimulationCore [(1 : ℚ), 2, 3] 1 AlgorithmType.CLOCK).steps.getD 1 default).replacedPage ≠
      none :=
  (clock_sweep_selects_zero_bit [(1 : ℚ), 2, 3] 1 (by decide) 1 (by decide)
    (by decide) (by decide)).2.2.2.2

/-! ## LRU: victim scan characterization (C4) -/

theorem lruScan_nil (m : List (Page × ℕ)) (acc : WithTop ℤ × Page) :
    lruScan m [] acc = acc := rfl

theorem lruScan_none (m : List (Page × ℕ)) (fs : List (Option Page))
    (acc : WithTop ℤ × Page) : lruScan m (none :: fs) acc = lruScan m fs acc := rfl

theorem lruScan_some (m : List (Page × ℕ)) (fs : List (Option Page)) (p : Page)
    (mn : WithTop ℤ) (pte : Page) :
    lruScan m (some p :: fs) (mn, pte) =
      if (lastAccessOf m p : WithTop ℤ) < mn then
        lruScan m fs ((lastAccessOf m p : WithTop ℤ), p)
      else lruScan m fs (mn, pte) := rfl

/-- The LRU scan computes a minimum: its result is below the accumulator and
below every resident page's last access, and it either leaves the accumulator
untouched or returns a resident page realizing a strictly smaller value. -/
theorem lruScan_min (m : List (Page × ℕ)) :
    ∀ (fs : List (Option Page)) (mn : WithTop ℤ) (pte : Page),
      (lruScan m fs (mn, pte)).1 ≤ mn ∧
      (∀ p ∈ fs.filterMap id,
        (lruScan m fs (mn, pte)).1 ≤ (lastAccessOf m p : WithTop ℤ)) ∧
      (lruScan m fs (mn, pte) = (mn, pte) ∨
        ((lruScan m fs (mn, pte)).2 ∈ fs.filterMap id ∧
         (lruScan m fs (mn, pte)).1 =
           (lastAccessOf m (lruScan m fs (mn, pte)).2 : WithTop ℤ) ∧
         (lruScan m fs (mn, pte)).1 < mn)) := by
  intro fs
  induction fs with
  | nil =>
    intro mn pte
    rw [lruScan_nil]
    exact ⟨le_refl _, by simp, Or.inl rfl⟩
  | cons x fs ih =>
    intro mn pte
    cases x with
    | none =>
      rw [lruScan_none]
      obtain ⟨h1, h2, h3⟩ := ih mn pte
      exact ⟨h1, by simpa using h2, by simpa using h3⟩
    | some p =>
      rw [lruScan_some]
      by_cases hlt : (lastAccessOf m p : WithTop ℤ) < mn
      · rw [if_pos hlt]
        obtain ⟨h1, h2, h3⟩ := ih (lastAccessOf m p : WithTop ℤ) p
        refine ⟨le_of_lt (lt_of_le_of_lt h1 hlt), ?_, ?_⟩
        · intro q hq
          rcases (by simpa using hq : q = p ∨ q ∈ fs.filterMap id) with hq | hq
          · rw [hq]; exact h1
          · exact h2 q hq
        · rcases h3 with h3 | ⟨hm, he, hl⟩
          · refine Or.inr ⟨?_, ?_, ?_⟩
            · rw [h3]; simp
            · rw [h3]
            · rw [h3]; exact hlt
          · exact Or.inr ⟨by simpa using Or.inr hm, he, lt_trans hl hlt⟩
      · rw [if_neg hlt]
        obtain ⟨h1, h2, h3⟩ := ih mn pte
        refine ⟨h1, ?_, ?_⟩
        · intro q hq
          rcases (by simpa using hq : q = p ∨ q ∈ fs.filterMap id) with hq | hq
          · rw [hq]; exact le_trans h1 (not_lt.mp hlt)
          · exact h2 q hq
        · rcases h3 with h3 | ⟨hm, he, hl⟩
          · exact Or.inl h3
          · exact Or.inr ⟨by simpa using Or.inr hm, he, hl⟩

/-- The LRU scan keeps the first resident page attaining the minimum: whenever
the accumulator was beaten, `find?` for the result value returns exactly the
scan's chosen page. -/
theorem lruScan_first (m : List (Page × ℕ)) :
    ∀ (fs : List (Option Page)) (mn : WithTop ℤ) (pte : Page),
      (lruScan m fs (mn, pte)).1 < mn →
      (fs.filterMap id).find?
        (fun p => decide ((lastAccessOf m p : WithTop ℤ) = (lruScan m fs (mn, pte)).1)) =
        some (lruScan m fs (mn, pte)).2 := by
  intro fs
  induction fs with
  | nil =>
    intro mn pte h
    rw [lruScan_nil] at h
    exact absurd h (lt_irrefl _)
  | cons x fs ih =>
    intro mn pte h
    cases x with
    | none =>
      rw [lruScan_none] at h ⊢
      simpa using ih mn pte h
    | some p =>
      rw [lruScan_some] at h ⊢
      by_cases hlt : (lastAccessOf m p : WithTop ℤ) < mn
      · rw [if_pos hlt] at h ⊢
        obtain ⟨h1, _, h3⟩ := lruScan_min m fs (lastAccessOf m p : WithTop ℤ) p
        by_cases hr : (lruScan m fs ((lastAccessOf m p : WithTop ℤ), p)).1 <
            (lastAccessOf m p : WithTop ℤ)
        · have hne : ¬ ((lastAccessOf m p : WithTop ℤ) =
              (lruScan m fs ((lastAccessOf m p : WithTop ℤ), p)).1) :=
            fun hc => lt_irrefl _ (lt_of_lt_of_le hr (le_of_eq hc))
          simp only [List.filterMap_cons, id]
          rw [List.find?_cons_of_neg _ (by simpa using hne)]
          exact ih _ _ hr
        · have heq : (lruScan m fs ((lastAccessOf m p : WithTop ℤ), p)).1 =
              (lastAccessOf m p : WithTop ℤ) := le_antisymm h1 (not_lt.mp hr)
          have hpte : (lruScan m fs ((lastAccessOf m p : WithTop ℤ), p)).2 = p := by
            rcases h3 with h3 | ⟨_, _, hl⟩
            · rw [h3]
            · exact absurd (heq ▸ hl) (lt_irrefl _)
          simp only [List.filterMap_cons, id]
          rw [List.find?_cons_of_pos _ (by simpa using heq.symm), hpte]
      · rw [if_neg hlt] at h ⊢
        have hne : ¬ ((lastAccessOf m p : WithTop ℤ) = (lruScan m fs (mn, pte)).1) := by
          intro hc
          rw [hc] at hlt
          exact hlt h
        simp only [List.filterMap_cons, id]
        rw [List.find?_cons_of_neg _ (by simpa using hne)]
        exact ih _ _ h

theorem stateAt_invariant_mem {alg : AlgorithmType} {pages : List Page} {fc : ℕ}
    (P : SimState → Prop) (h0 : P (initState fc))
    (hstep : ∀ s p, p ∈ pages → P s → P (stepFn alg pages fc s p)) (n : ℕ) :
    P (stateAt pages fc alg n) := by
  have gen : ∀ (l : List Page) (st : SimState), (∀ x ∈ l, x ∈ pages) → P st →
      P (l.foldl (stepFn alg pages fc) st) := by
    intro l
    induction l with
    | nil => intro st _ h; exact h
    | cons p l ih =>
      intro st hl h
      exact ih _ (fun x hx => hl x (List.mem_cons.mpr (Or.inr hx)))
        (hstep _ _ (hl p (List.mem_cons_self _ _)) h)
  exact gen _ _ (fun x hx => List.take_subset n pages hx) h0

/-- When every page of the input is nonnegative, every resident page is. -/
theorem resident_nonneg (pages : List Page) (fc : ℕ) (alg : AlgorithmType)
    (hnn : ∀ p ∈ pages, 0 ≤ p) (n : ℕ) :
    ∀ q, some q ∈ (stateAt pages fc alg n).frames → 0 ≤ q := by
  refine stateAt_invariant_mem (fun st => ∀ q, some q ∈ st.frames → 0 ≤ q)
    (fun q hq => absurd hq (by simp [initState])) ?_ n
  intro st p hp hres q hq
  rcases stepFn_frames_shape alg pages fc st p with h | ⟨j, h⟩
  · rw [h] at hq
    exact hres q hq
  · rw [h] at hq
    rcases List.mem_or_eq_of_mem_set hq with hq | hq
    · exact hres q hq
    · have hqp : q = p := Option.some_injective _ hq
      rw [hqp]
      exact hnn p hp

/-- The LRU victim specification, as the claim states it: a resident page
whose recorded last-reference index is minimal among resident pages, ties
broken by the first such page in frame-slot order. -/
def LRUVictimSpec (m : List (Page × ℕ)) (frames : List (Option Page)) (v : Page) : Prop :=
  v ∈ frames.filterMap id ∧
  (∀ p ∈ frames.filterMap id, lastAccessOf m v ≤ lastAccessOf m p) ∧
  (frames.filterMap id).find?
    (fun p => decide (lastAccessOf m p = lastAccessOf m v)) = some v

theorem replaceLRU_replaced (st : SimState) (page : Page) :
    (replaceLRU st page).2.1 =
      if (lruScan st.lruMap st.frames (⊤, -1)).2 ≠ (-1 : ℚ) then
        some (lruScan st.lruMap st.frames (⊤, -1)).2
      else none := by
  by_cases hp : (lruScan st.lruMap st.frames (⊤, -1)).2 ≠ (-1 : ℚ)
  · rw [if_pos hp]
    simp only [replaceLRU, if_pos hp]
  · rw [if_neg hp]
    simp only [replaceLRU, if_neg hp]

/-- C4: under LRU, on every fault with no empty frame the evicted page's
recorded last-reference index is minimal among the resident pages with ties
broken by frame-slot order (and with nonnegative input pages a victim always
exists), and on every hit the hit page's last-reference index is updated to
the current step index. -/
theorem lru_evicts_least_recently_used (pages : List Page) (fc : ℕ) (hfc : 1 ≤ fc)
    (i : ℕ) (hi : i < pages.length) :
    (some (pages.getD i 0) ∉ (stateAt pages fc AlgorithmType.LRU i).frames →
     none ∉ (stateAt pages fc AlgorithmType.LRU i).frames →
      ((∀ p ∈ pages, 0 ≤ p) →
        ((runSimulationCore pages fc AlgorithmType.LRU).steps.getD i default).replacedPage.isSome
          = true) ∧
      (∀ v, ((runSimulationCore pages fc AlgorithmType.LRU).steps.getD i default).replacedPage
          = some v →
        LRUVictimSpec (stateAt pages fc AlgorithmType.LRU i).lruMap
          (stateAt pages fc AlgorithmType.LRU i).frames v)) ∧
    (some (pages.getD i 0) ∈ (stateAt pages fc AlgorithmType.LRU i).frames →
      (stateAt pages fc AlgorithmType.LRU (i + 1)).lruMap =
        lruSet (stateAt pages fc AlgorithmType.LRU i).lruMap (pages.getD i 0) i) := by
  constructor
  · intro hmiss hfull
    have hrep : ((runSimulationCore pages fc AlgorithmType.LRU).steps.getD i default).replacedPage
        = (replaceLRU (stateAt pages fc AlgorithmType.LRU i) (pages.getD i 0)).2.1 := by
      rw [result_steps_getD fc AlgorithmType.LRU hi,
        stepOut_replace_LRU pages fc hmiss hfull]
    rw [hrep, replaceLRU_replaced]
    obtain ⟨hmin1, hmin2, hmin3⟩ :=
      lruScan_min (stateAt pages fc AlgorithmType.LRU i).lruMap
        (stateAt pages fc AlgorithmType.LRU i).frames ⊤ (-1)
    constructor
    · intro hnn
      have hres : (stateAt pages fc AlgorithmType.LRU i).frames.filterMap id ≠ [] := by
        intro hemp
        have h1 := length_filterMap_id_of_full _ hfull
        have h2 := (frames_invariant pages fc AlgorithmType.LRU i).1
        rw [hemp] at h1
        simp only [List.length_nil] at h1
        omega
      obtain ⟨q, hq⟩ := List.exists_mem_of_ne_nil _ hres
      have hlt : (lruScan (stateAt pages fc AlgorithmType.LRU i).lruMap
          (stateAt pages fc AlgorithmType.LRU i).frames (⊤, -1)).1 < ⊤ :=
        lt_of_le_of_lt (hmin2 q hq) (WithTop.coe_lt_top _)
      rcases hmin3 with h | ⟨hm, _, _⟩
      · rw [h] at hlt
        exact absurd hlt (lt_irrefl _)
      · have hv0 : 0 ≤ (lruScan (stateAt pages fc AlgorithmType.LRU i).lruMap
            (stateAt pages fc AlgorithmType.LRU i).frames (⊤, -1)).2 :=
          resident_nonneg pages fc AlgorithmType.LRU hnn i _
            ((mem_filterMap_id _ _).mp hm)
        have hne : (lruScan (stateAt pages fc AlgorithmType.LRU i).lruMap
            (stateAt pages fc AlgorithmType.LRU i).frames (⊤, -1)).2 ≠ (-1 : ℚ) := by
          intro hc
          rw [hc] at hv0
          norm_num at hv0
        rw [if_pos hne]
        rfl
    · intro v hv
      by_cases hne : (lruScan (stateAt pages fc AlgorithmType.LRU i).lruMap
          (stateAt pages fc AlgorithmType.LRU i).frames (⊤, -1)).2 ≠ (-1 : ℚ)
      · rw [if_pos hne] at hv
        obtain rfl : (lruScan (stateAt pages fc AlgorithmType.LRU i).lruMap
            (stateAt pages fc AlgorithmType.LRU i).frames (⊤, -1)).2 = v :=
          Option.some_injective _ hv
        rcases hmin3 with h | ⟨hm, he, hl⟩
        · exact absurd (congrArg Prod.snd h) hne
        · refine ⟨hm, ?_, ?_⟩
          · intro p hp
            have := hmin2 p hp
            rw [he] at this
            exact_mod_cast this
          · have hfind := lruScan_first (stateAt pages fc AlgorithmType.LRU i).lruMap
              (stateAt pages fc AlgorithmType.LRU i).frames ⊤ (-1) hl
            rw [he] at hfind
            have hpred : (fun p => decide ((lastAccessOf
                  (stateAt pages fc AlgorithmType.LRU i).lruMap p : WithTop ℤ) =
                (lastAccessOf (stateAt pages fc AlgorithmType.LRU i).lruMap
                  (lruScan (stateAt pages fc AlgorithmType.LRU i).lruMap
                    (stateAt pages fc AlgorithmType.LRU i).frames (⊤, -1)).2 : WithTop ℤ))) =
                (fun p => decide (lastAccessOf
                  (stateAt pages fc AlgorithmType.LRU i).lruMap p =
                lastAccessOf (stateAt pages fc AlgorithmType.LRU i).lruMap
                  (lruScan (stateAt pages fc AlgorithmType.LRU i).lruMap
                    (stateAt pages fc AlgorithmType.LRU i).frames (⊤, -1)).2)) := by
              funext p
              exact decide_eq_decide.mpr WithTop.coe_eq_coe
            rw [hpred] at hfind
            exact hfind
      · rw [if_neg hne] at hv
        exact absurd hv (by simp)
  · intro hhit
    rw [stateAt_succ fc AlgorithmType.LRU hi,
      stepFn_hit AlgorithmType.LRU pages fc hhit]
    have hlm : (hitStep AlgorithmType.LRU (stateAt pages fc AlgorithmType.LRU i)
        (pages.getD i 0)).lruMap =
        lruSet (stateAt pages fc AlgorithmType.LRU i).lruMap (pages.getD i 0)
          (stateAt pages fc AlgorithmType.LRU i).stepIndex := by
      simp [hitStep]
    rw [hlm, stateAt_stepIndex fc AlgorithmType.LRU i (Nat.le_of_lt hi)]

/-- Witness for C4: on the run `[1,2,3]` with one LRU frame, step 1 evicts
page 1, which satisfies the LRU victim specification. -/
theorem lru_evicts_least_recently_used_witness :
    LRUVictimSpec (stateAt [(1 : ℚ), 2, 3] 1 AlgorithmType.LRU 1).lruMap
      (stateAt [(1 : ℚ), 2, 3] 1 AlgorithmType.LRU 1).frames 1 :=
  (((lru_evicts_least_recently_used [(1 : ℚ), 2, 3] 1 (by decide) 1 (by decide)).1
    (by decide) (by decide)).2) 1 (by decide)

/-! ## Optimal: lookahead scan characterization (C3) -/

/-- Next-use distance of a page in the remaining reference suffix: the index
of its first occurrence, `⊤` ("infinite") when it never occurs again. -/
def nextUse (rest : List Page) (p : Page) : WithTop ℤ :=
  match jsIndexOf? rest p with
  | none => ⊤
  | some j => ((j : ℤ) : WithTop ℤ)

theorem nextUse_eq_top_iff (rest : List Page) (p : Page) :
    nextUse rest p = ⊤ ↔ p ∉ rest := by
  rcases hj : jsIndexOf? rest p with _ | j
  · simp [nextUse, hj, (jsIndexOf?_eq_none rest p).mp hj]
  · have hmem : p ∈ rest := by
      have := (jsIndexOf?_isSome rest p)
      rw [hj] at this
      simpa using this
    simp [nextUse, hj, hmem, WithTop.coe_ne_top]

theorem neg_one_lt_nextUse (rest : List Page) (p : Page) :
    ((-1 : ℤ) : WithTop ℤ) < nextUse rest p := by
  rcases hj : jsIndexOf? rest p with _ | j
  · simp [nextUse, hj]
    exact WithTop.coe_lt_top _
  · simp only [nextUse, hj]
    rw [WithTop.coe_lt_coe]
    omega

theorem optScan_nil (rest : List Page) (acc : WithTop ℤ × Page × Bool) :
    optScan rest [] acc = acc := rfl

theorem optScan_none (rest : List Page) (fs : List (Option Page))
    (acc : WithTop ℤ × Page × Bool) :
    optScan rest (none :: fs) acc = optScan rest fs acc := rfl

theorem optScan_cons_notfound (rest : List Page) (fs : List (Option Page))
    (p : Page) (fd : WithTop ℤ) (pte : Page) (isInf : Bool)
    (hj : jsIndexOf? rest p = none) :
    optScan rest (some p :: fs) (fd, pte, isInf) =
      if isInf then optScan rest fs (fd, pte, isInf)
      else optScan rest fs (⊤, p, true) := by
  have h0 : optScan rest (some p :: fs) (fd, pte, isInf) =
      (match jsIndexOf? rest p with
       | none =>
         if isInf then optScan rest fs (fd, pte, isInf)
         else optScan rest fs (⊤, p, true)
       | some j =>
         if isInf = false ∧ fd < ((j : ℤ) : WithTop ℤ) then
           optScan rest fs (((j : ℤ) : WithTop ℤ), p, isInf)
         else optScan rest fs (fd, pte, isInf)) := rfl
  rw [h0, hj]

theorem optScan_cons_found (rest : List Page) (fs : List (Option Page))
    (p : Page) (fd : WithTop ℤ) (pte : Page) (isInf : Bool) (j : ℕ)
    (hj : jsIndexOf? rest p = some j) :
    optScan rest (some p :: fs) (fd, pte, isInf) =
      if isInf = false ∧ fd < ((j : ℤ) : WithTop ℤ) then
        optScan rest fs (((j : ℤ) : WithTop ℤ), p, isInf)
      else optScan rest fs (fd, pte, isInf) := by
  have h0 : optScan rest (some p :: fs) (fd, pte, isInf) =
      (match jsIndexOf? rest p with
       | none =>
         if isInf then optScan rest fs (fd, pte, isInf)
         else optScan rest fs (⊤, p, true)
       | some j =>
         if isInf = false ∧ fd < ((j : ℤ) : WithTop ℤ) then
           optScan rest fs (((j : ℤ) : WithTop ℤ), p, isInf)
         else optScan rest fs (fd, pte, isInf)) := rfl
  rw [h0, hj]

/-- The Optimal scan computes a maximum of `nextUse` over the resident pages
(with `⊤` for never-used-again pages taking precedence): the result dominates
the accumulator and every resident page, and it either leaves the accumulator
untouched or returns a resident page realizing a strictly larger value.  The
`isInf` flag tracks exactly whether the current best is `⊤`. -/
theorem optScan_max (rest : List Page) :
    ∀ (fs : List (Option Page)) (fd : WithTop ℤ) (pte : Page) (isInf : Bool),
      (isInf = true ↔ fd = ⊤) →
      ((optScan rest fs (fd, pte, isInf)).2.2 = true ↔
        (optScan rest fs (fd, pte, isInf)).1 = ⊤) ∧
      fd ≤ (optScan rest fs (fd, pte, isInf)).1 ∧
      (∀ p ∈ fs.filterMap id, nextUse rest p ≤ (optScan rest fs (fd, pte, isInf)).1) ∧
      (optScan rest fs (fd, pte, isInf) = (fd, pte, isInf) ∨
        ((optScan rest fs (fd, pte, isInf)).2.1 ∈ fs.filterMap id ∧
         (optScan rest fs (fd, pte, isInf)).1 =
           nextUse rest (optScan rest fs (fd, pte, isInf)).2.1 ∧
         fd < (optScan rest fs (fd, pte, isInf)).1)) := by
  intro fs
  induction fs with
  | nil =>
    intro fd pte isInf hinv
    rw [optScan_nil]
    exact ⟨hinv, le_refl _, by simp, Or.inl rfl⟩
  | cons x fs ih =>
    intro fd pte isInf hinv
    cases x with
    | none =>
      rw [optScan_none]
      obtain ⟨a, b, c, d⟩ := ih fd pte isInf hinv
      exact ⟨a, b, by simpa using c, by simpa using d⟩
    | some p =>
      rcases hj : jsIndexOf? rest p with _ | j
      · have hnu : nextUse rest p = ⊤ := by simp [nextUse, hj]
        rw [optScan_cons_notfound rest fs p fd pte isInf hj]
        cases isInf with
        | true =>
          rw [if_pos rfl]
          have hfd : fd = ⊤ := hinv.mp rfl
          obtain ⟨a, b, c, d⟩ := ih fd pte true hinv
          refine ⟨a, b, ?_, ?_⟩
          · intro q hq
            rcases (by simpa using hq : q = p ∨ q ∈ fs.filterMap id) with hq | hq
            · rw [hq, hnu, ← hfd]
              exact b
            · exact c q hq
          · rcases d with d | ⟨dm, de, dl⟩
            · exact Or.inl d
            · exact Or.inr ⟨by simpa using Or.inr dm, de, dl⟩
        | false =>
          rw [if_neg (by simp)]
          have hinv' : (true = true ↔ (⊤ : WithTop ℤ) = ⊤) := by simp
          obtain ⟨a, b, c, d⟩ := ih ⊤ p true hinv'
          have hrtop : (optScan rest fs (⊤, p, true)).1 = ⊤ := top_le_iff.mp b
          have hfdne : fd ≠ ⊤ := fun hc => by
            have := hinv.mpr hc
            exact Bool.false_ne_true this
          refine ⟨a, le_top.trans b, ?_, ?_⟩
          · intro q hq
            rcases (by simpa using hq : q = p ∨ q ∈ fs.filterMap id) with hq | hq
            · rw [hq, hnu, hrtop]
            · exact c q hq
          · rcases d with d | ⟨dm, de, dl⟩
            · refine Or.inr ⟨?_, ?_, ?_⟩
              · rw [d]; simp
              · rw [d, hnu]
              · rw [d]
                exact lt_top_iff_ne_top.mpr hfdne
            · exact absurd dl (by simp)
      · have hnu : nextUse rest p = ((j : ℤ) : WithTop ℤ) := by simp [nextUse, hj]
        rw [optScan_cons_found rest fs p fd pte isInf j hj]
        by_cases hc : isInf = false ∧ fd < ((j : ℤ) : WithTop ℤ)
        · rw [if_pos hc]
          have hinv' : (isInf = true ↔ (((j : ℤ) : WithTop ℤ)) = ⊤) := by
            rw [hc.1]
            simp [WithTop.coe_ne_top]
          obtain ⟨a, b, c, d⟩ := ih ((j : ℤ) : WithTop ℤ) p isInf hinv'
          refine ⟨a, le_of_lt (lt_of_lt_of_le hc.2 b), ?_, ?_⟩
          · intro q hq
            rcases (by simpa using hq : q = p ∨ q ∈ fs.filterMap id) with hq | hq
            · rw [hq, hnu]
              exact b
            · exact c q hq
          · rcases d with d | ⟨dm, de, dl⟩
            · refine Or.inr ⟨by rw [d]; simp, ?_, by rw [d]; exact hc.2⟩
              rw [d, hnu]
            · exact Or.inr ⟨by simpa using Or.inr dm, de, lt_trans hc.2 dl⟩
        · rw [if_neg hc]
          obtain ⟨a, b, c, d⟩ := ih fd pte isInf hinv
          refine ⟨a, b, ?_, ?_⟩
          · intro q hq
            rcases (by simpa using hq : q = p ∨ q ∈ fs.filterMap id) with hq | hq
            · rw [hq, hnu]
              rcases (not_and_or.mp hc) with hI | hminf
              · have hItrue : isInf = true := by
                  cases isInf
                  · exact absurd rfl hI
                  · rfl
                have hfd : fd = ⊤ := hinv.mp hItrue
                have hb : (⊤ : WithTop ℤ) ≤ (optScan rest fs (fd, pte, isInf)).1 := hfd ▸ b
                exact le_top.trans hb
              · exact le_trans (not_lt.mp hminf) b
            · exact c q hq
          · rcases d with d | ⟨dm, de, dl⟩
            · exact Or.inl d
            · exact Or.inr ⟨by simpa using Or.inr dm, de, dl⟩

/-- The Optimal scan keeps the first resident page attaining the maximum:
whenever the accumulator was beaten, `find?` for the result value returns
exactly the scan's chosen page. -/
theorem optScan_first (rest : List Page) :
    ∀ (fs : List (Option Page)) (fd : WithTop ℤ) (pte : Page) (isInf : Bool),
      (isInf = true ↔ fd = ⊤) →
      fd < (optScan rest fs (fd, pte, isInf)).1 →
      (fs.filterMap id).find?
        (fun p => decide (nextUse rest p = (optScan rest fs (fd, pte, isInf)).1)) =
        some (optScan rest fs (fd, pte, isInf)).2.1 := by
  intro fs
  induction fs with
  | nil =>
    intro fd pte isInf _ h
    rw [optScan_nil] at h
    exact absurd h (lt_irrefl _)
  | cons x fs ih =>
    intro fd pte isInf hinv h
    cases x with
    | none =>
      rw [optScan_none] at h ⊢
      simpa using ih fd pte isInf hinv h
    | some p =>
      rcases hj : jsIndexOf? rest p with _ | j
      · have hnu : nextUse rest p = ⊤ := by simp [nextUse, hj]
        rw [optScan_cons_notfound rest fs p fd pte isInf hj] at h ⊢
        cases isInf with
        | true =>
          rw [if_pos rfl] at h ⊢
          have hfd : fd = ⊤ := hinv.mp rfl
          rw [hfd] at h
          exact absurd h (by simp)
        | false =>
          rw [if_neg (by simp)] at h ⊢
          have hinv' : (true = true ↔ (⊤ : WithTop ℤ) = ⊤) := by simp
          obtain ⟨_, b, _, d⟩ := optScan_max rest fs ⊤ p true hinv'
          have hrtop : (optScan rest fs (⊤, p, true)).1 = ⊤ := top_le_iff.mp b
          have hpte : (optScan rest fs (⊤, p, true)).2.1 = p := by
            rcases d with d | ⟨_, _, dl⟩
            · rw [d]
            · exact absurd dl (by simp)
          simp only [List.filterMap_cons, id]
          rw [List.find?_cons_of_pos _ (by simp [hnu, hrtop]), hpte]
      · have hnu : nextUse rest p = ((j : ℤ) : WithTop ℤ) := by simp [nextUse, hj]
        rw [optScan_cons_found rest fs p fd pte isInf j hj] at h ⊢
        by_cases hc : isInf = false ∧ fd < ((j : ℤ) : WithTop ℤ)
        · rw [if_pos hc] at h ⊢
          have hinv' : (isInf = true ↔ (((j : ℤ) : WithTop ℤ)) = ⊤) := by
            rw [hc.1]
            simp [WithTop.coe_ne_top]
          obtain ⟨_, b, _, d⟩ := optScan_max rest fs ((j : ℤ) : WithTop ℤ) p isInf hinv'
          by_cases hr : ((j : ℤ) : WithTop ℤ) < (optScan rest fs (((j : ℤ) : WithTop ℤ), p, isInf)).1
          · have hne : ¬ (nextUse rest p =
                (optScan rest fs (((j : ℤ) : WithTop ℤ), p, isInf)).1) := by
              rw [hnu]
              exact fun hcc => ne_of_lt hr hcc
            simp only [List.filterMap_cons, id]
            rw [List.find?_cons_of_neg _ (by simpa using hne)]
            exact ih _ _ _ hinv' hr
          · have heq : (optScan rest fs (((j : ℤ) : WithTop ℤ), p, isInf)).1 =
                ((j : ℤ) : WithTop ℤ) := le_antisymm (not_lt.mp hr) b
            have hpte : (optScan rest fs (((j : ℤ) : WithTop ℤ), p, isInf)).2.1 = p := by
              rcases d with d | ⟨_, _, dl⟩
              · rw [d]
              · exact absurd (heq ▸ dl) (lt_irrefl _)
            simp only [List.filterMap_cons, id]
            rw [List.find?_cons_of_pos _ (by rw [hnu, heq]; simp), hpte]
        · rw [if_neg hc] at h ⊢
          have hne : ¬ (nextUse rest p = (optScan rest fs (fd, pte, isInf)).1) := by
            rw [hnu]
            intro hcc
            rcases (not_and_or.mp hc) with hI | hminf
            · have hItrue : isInf = true := by
                cases isInf
                · exact absurd rfl hI
                · rfl
              have hfd : fd = ⊤ := hinv.mp hItrue
              rw [hfd] at h
              exact absurd h (by simp)
            · have : fd < ((j : ℤ) : WithTop ℤ) := hcc ▸ h
              exact hminf this
          simp only [List.filterMap_cons, id]
          rw [List.find?_cons_of_neg _ (by simpa using hne)]
          exact ih _ _ _ hinv h

/-- The Optimal victim specification, as the claim states it: if some resident
page has no future occurrence, the victim is the first such page in frame-slot
order; otherwise the victim is a resident page with the largest next-use
distance, ties keeping the first page in frame-slot order. -/
def OptimalVictimSpec (frames : List (Option Page)) (rest : List Page) (v : Page) : Prop :=
  if ∃ p ∈ frames.filterMap id, p ∉ rest then
    (frames.filterMap id).find? (fun p => decide (p ∉ rest)) = some v
  else
    v ∈ frames.filterMap id ∧
    (∀ p ∈ frames.filterMap id, nextUse rest p ≤ nextUse rest v) ∧
    (frames.filterMap id).find?
      (fun p => decide (nextUse rest p = nextUse rest v)) = some v

theorem replaceOPT_replaced (pages : List Page) (st : SimState) (page : Page) :
    (replaceOPT pages st page).2 =
      if (optScan (pages.drop (st.stepIndex + 1)) st.frames
          (((-1 : ℤ) : WithTop ℤ), -1, false)).2.1 ≠ (-1 : ℚ) then
        some (optScan (pages.drop (st.stepIndex + 1)) st.frames
          (((-1 : ℤ) : WithTop ℤ), -1, false)).2.1
      else none := by
  by_cases hp : (optScan (pages.drop (st.stepIndex + 1)) st.frames
      (((-1 : ℤ) : WithTop ℤ), -1, false)).2.1 ≠ (-1 : ℚ)
  · rw [if_pos hp]
    simp only [replaceOPT, if_pos hp]
  · rw [if_neg hp]
    simp only [replaceOPT, if_neg hp]

/-- C3: under OPTIMAL, on every fault with no empty frame the evicted page is
chosen by the lookahead rule: a resident page with no future occurrence takes
precedence (the first such in frame-slot order is kept), otherwise the
resident page with the largest next-use distance is evicted, equal distances
keeping the first page in frame-slot order (and with nonnegative input pages
a victim always exists). -/
theorem optimal_evicts_furthest_next_use (pages : List Page) (fc : ℕ) (hfc : 1 ≤ fc)
    (i : ℕ) (hi : i < pages.length)
    (hmiss : some (pages.getD i 0) ∉ (stateAt pages fc AlgorithmType.OPTIMAL i).frames)
    (hfull : none ∉ (stateAt pages fc AlgorithmType.OPTIMAL i).frames) :
    ((∀ p ∈ pages, 0 ≤ p) →
      ((runSimulationCore pages fc AlgorithmType.OPTIMAL).steps.getD i default).replacedPage.isSome
        = true) ∧
    (∀ v, ((runSimulationCore pages fc AlgorithmType.OPTIMAL).steps.getD i default).replacedPage
        = some v →
      OptimalVictimSpec (stateAt pages fc AlgorithmType.OPTIMAL i).frames
        (pages.drop (i + 1)) v) := by
  have hstep : (stateAt pages fc AlgorithmType.OPTIMAL i).stepIndex = i :=
    stateAt_stepIndex fc AlgorithmType.OPTIMAL i (Nat.le_of_lt hi)
  have hrep : ((runSimulationCore pages fc AlgorithmType.OPTIMAL).steps.getD i default).replacedPage
      = (replaceOPT pages (stateAt pages fc AlgorithmType.OPTIMAL i) (pages.getD i 0)).2 := by
    rw [result_steps_getD fc AlgorithmType.OPTIMAL hi,
      stepOut_replace_OPTIMAL pages fc hmiss hfull]
  rw [hrep, replaceOPT_replaced, hstep]
  have hinv0 : (false = true ↔ (((-1 : ℤ) : WithTop ℤ)) = ⊤) := by
    simp [WithTop.coe_ne_top]
  obtain ⟨_, _, hmax, hdisj⟩ :=
    optScan_max (pages.drop (i + 1)) (stateAt pages fc AlgorithmType.OPTIMAL i).frames
      ((-1 : ℤ) : WithTop ℤ) (-1) false hinv0
  constructor
  · intro hnn
    have hres : (stateAt pages fc AlgorithmType.OPTIMAL i).frames.filterMap id ≠ [] := by
      intro hemp
      have h1 := length_filterMap_id_of_full _ hfull
      have h2 := (frames_invariant pages fc AlgorithmType.OPTIMAL i).1
      rw [hemp] at h1
      simp only [List.length_nil] at h1
      omega
    obtain ⟨q, hq⟩ := List.exists_mem_of_ne_nil _ hres
    have hlt : ((-1 : ℤ) : WithTop ℤ) <
        (optScan (pages.drop (i + 1)) (stateAt pages fc AlgorithmType.OPTIMAL i).frames
          (((-1 : ℤ) : WithTop ℤ), -1, false)).1 :=
      lt_of_lt_of_le (neg_one_lt_nextUse _ q) (hmax q hq)
    rcases hdisj with h | ⟨hm, _, _⟩
    · rw [h] at hlt
      exact absurd hlt (lt_irrefl _)
    · have hv0 : (0 : ℚ) ≤ (optScan (pages.drop (i + 1))
          (stateAt pages fc AlgorithmType.OPTIMAL i).frames
          (((-1 : ℤ) : WithTop ℤ), -1, false)).2.1 :=
        resident_nonneg pages fc AlgorithmType.OPTIMAL hnn i _
          ((mem_filterMap_id _ _).mp hm)
      have hne : (optScan (pages.drop (i + 1))
          (stateAt pages fc AlgorithmType.OPTIMAL i).frames
          (((-1 : ℤ) : WithTop ℤ), -1, false)).2.1 ≠ (-1 : ℚ) := by
        intro hcc
        rw [hcc] at hv0
        norm_num at hv0
      rw [if_pos hne]
      rfl
  · intro v hv
    by_cases hne : (optScan (pages.drop (i + 1))
        (stateAt pages fc AlgorithmType.OPTIMAL i).frames
        (((-1 : ℤ) : WithTop ℤ), -1, false)).2.1 ≠ (-1 : ℚ)
    · rw [if_pos hne] at hv
      obtain rfl : (optScan (pages.drop (i + 1))
          (stateAt pages fc AlgorithmType.OPTIMAL i).frames
          (((-1 : ℤ) : WithTop ℤ), -1, false)).2.1 = v :=
        Option.some_injective _ hv
      rcases hdisj with h | ⟨hm, he, hl⟩
      · exact absurd (congrArg (fun x => x.2.1) h) hne
      · have hfind := optScan_first (pages.drop (i + 1))
          (stateAt pages fc AlgorithmType.OPTIMAL i).frames
          ((-1 : ℤ) : WithTop ℤ) (-1) false hinv0 hl
        rw [OptimalVictimSpec]
        by_cases hex : ∃ p ∈ (stateAt pages fc AlgorithmType.OPTIMAL i).frames.filterMap id,
            p ∉ pages.drop (i + 1)
        · rw [if_pos hex]
          obtain ⟨w, hw, hwnr⟩ := hex
          have hwtop : nextUse (pages.drop (i + 1)) w = ⊤ :=
            (nextUse_eq_top_iff _ _).mpr hwnr
          have hrtop : (optScan (pages.drop (i + 1))
              (stateAt pages fc AlgorithmType.OPTIMAL i).frames
              (((-1 : ℤ) : WithTop ℤ), -1, false)).1 = ⊤ :=
            top_le_iff.mp (hwtop ▸ hmax w hw)
          rw [hrtop] at hfind
          have hpred : (fun p => decide (nextUse (pages.drop (i + 1)) p = (⊤ : WithTop ℤ))) =
              (fun p => decide (p ∉ pages.drop (i + 1))) := by
            funext p
            exact decide_eq_decide.mpr (nextUse_eq_top_iff _ _)
          rw [hpred] at hfind
          exact hfind
        · rw [if_neg hex]
          refine ⟨hm, ?_, ?_⟩
          · intro p hp
            have := hmax p hp
            rw [he] at this
            exact this
          · rw [he] at hfind
            exact hfind
    · rw [if_neg hne] at hv
      exact absurd hv (by simp)

/-- Witness for C3: on the run `[1,2,3]` with one OPTIMAL frame, step 1
evicts page 1, which satisfies the Optimal victim specification for the
remaining suffix `[3]`. -/
theorem optimal_evicts_furthest_next_use_witness :
    OptimalVictimSpec (stateAt [(1 : ℚ), 2, 3] 1 AlgorithmType.OPTIMAL 1).frames
      ([(1 : ℚ), 2, 3].drop 2) 1 :=
  ((optimal_evicts_furthest_next_use [(1 : ℚ), 2, 3] 1 (by decide) 1 (by decide)
    (by decide) (by decide)).2) 1 (by decide)

/-! ## The parser contract (C2) -/

/-- C2 counterexample: the token `"1.5"` is not an integer literal, yet
`parseReferenceString` keeps it, and the non-integer value `3/2` (denominator
2, not 1) appears in the returned sequence. -/
theorem parse_keeps_noninteger_token :
    parseReferenceString "1.5" = [mkRat 3 2] ∧ (mkRat 3 2).den = 2 := by
  decide

/-- C2 (amended): `parseReferenceString` splits on commas, trims each token,
and keeps exactly the nonempty numeric tokens (`Number(s)` not `NaN`) with
nonnegative value — including non-integer numeric tokens such as `"1.5"` —
preserving their order and duplicates; it is a total function (the lenient
parse cannot raise), and when every token is empty, non-numeric, or negative
the result is the empty sequence. -/
theorem parseReferenceString_characterization (input : String) :
    parseReferenceString input =
      ((splitComma input.data).map jsTrim).filterMap
        (fun t => (jsNumber t).bind
          (fun q => if t ≠ [] ∧ 0 ≤ q then some q else none)) ∧
    (∀ q ∈ parseReferenceString input, 0 ≤ q ∧
      ∃ t ∈ (splitComma input.data).map jsTrim, t ≠ [] ∧ jsNumber t = some q) ∧
    ((∀ t ∈ (splitComma input.data).map jsTrim,
        t = [] ∨ jsNumber t = none ∨ (jsNumber t).getD 0 < 0) →
      parseReferenceString input = []) := by
  have hchar : parseReferenceString input =
      ((splitComma input.data).map jsTrim).filterMap
        (fun t => (jsNumber t).bind
          (fun q => if t ≠ [] ∧ 0 ≤ q then some q else none)) :=
    parse_pipeline_eq _
  refine ⟨hchar, ?_, ?_⟩
  · intro q hq
    rw [hchar] at hq
    obtain ⟨t, ht, hbind⟩ := List.mem_filterMap.mp hq
    rcases hjq : jsNumber t with _ | v
    · rw [hjq] at hbind; exact absurd hbind (by simp)
    · rw [hjq] at hbind
      simp only [Option.some_bind] at hbind
      by_cases hc : t ≠ [] ∧ 0 ≤ v
      · rw [if_pos hc] at hbind
        obtain rfl : v = q := Option.some_injective _ hbind
        exact ⟨hc.2, t, ht, hc.1, hjq⟩
      · rw [if_neg hc] at hbind
        exact absurd hbind (by simp)
  · intro hall
    rw [hchar]
    refine List.filterMap_eq_nil_iff.mpr (fun t ht => ?_)
    rcases hall t ht with h | h | h
    · rcases hjq : jsNumber t with _ | v
      · simp
      · simp [h, hjq]
    · simp [h]
    · rcases hjq : jsNumber t with _ | v
      · simp
      · rw [hjq] at h
        simp only [Option.getD_some] at h
        simp [hjq, not_le.mpr h]

/-- Witness for C2: an input whose tokens are all invalid (non-numeric,
negative, doubly-dotted, or empty) parses to the empty sequence. -/
theorem parseReferenceString_characterization_witness :
    parseReferenceString "x, -1, 1.5.2, " = [] :=
  (parseReferenceString_characterization "x, -1, 1.5.2, ").2.2 (by decide)

/-! ## No frame-count validation (C1) and Scenario A (C7) -/

/-- C1 (the behaviour the code actually has): `runSimulation` performs no
frame-count validation.  Called with `frameCount = 0` it does not fail with a
`ConfigError` — it is total and returns an ordinary `SimulationResult`; on the
input `"1"` that result has one recorded FAULT step whose frame table is the
empty table, and no page is ever placed. -/
theorem runSimulation_zero_frames_returns_result :
    (runSimulation "1" 0 AlgorithmType.FIFO).steps.length = 1 ∧
    (runSimulation "1" 0 AlgorithmType.FIFO).totalFaults = 1 ∧
    (runSimulation "1" 0 AlgorithmType.FIFO).totalHits = 0 ∧
    ((runSimulation "1" 0 AlgorithmType.FIFO).steps.getD 0 default).frames = [] ∧
    ((runSimulation "1" 0 AlgorithmType.FIFO).steps.getD 0 default).replacedPage = none := by
  decide

/-- C7 counterexample: on Scenario A (`[7,0,1,2,0,3,0,4,2,3,0,3,1]`, 3 frames,
FIFO) the engine's total fault count is not 9. -/
theorem scenarioA_fifo_faults_ne_nine :
    (runSimulation "7,0,1,2,0,3,0,4,2,3,0,3,1" 3 AlgorithmType.FIFO).totalFaults ≠ 9 := by
  decide

/-- C7 (amended): on Scenario A (`[7,0,1,2,0,3,0,4,2,3,0,3,1]`, 3 frames,
FIFO) the engine's total fault count is 11 (the 13-reference textbook FIFO
trace has 2 hits). -/
theorem scenarioA_fifo_faults_eq_eleven :
    (runSimulation "7,0,1,2,0,3,0,4,2,3,0,3,1" 3 AlgorithmType.FIFO).totalFaults = 11 := by
  decide

end Paging
